import Mathlib

/-!
Verification of the aosc-findupdate version-resolution engine.

The development shallowly embeds the checker core (`src/checker/*.rs`):
the pkt-line reference-advertisement parser, the Git reference
classifier, the version extractor and comparator, and the six backend
`check` pipelines.  Byte strings are modelled as `List Nat`, fallible
computations as `Option`/`Except String`.  Calls into external crates
(winnow combinators are embedded directly; the regex engine, JSON
decoding and HTML selection are passed in as explicit function
parameters; the version-compare crate is modelled from the spec) are
documented at each definition.
-/

deriving instance DecidableEq for Except

/-- Bytes of an ASCII string, for writing concrete byte-stream inputs. -/
def bytes (s : String) : List Nat := s.data.map Char.toNat

/-- winnow `AsChar::is_hex_digit` on a byte: 0-9, a-f, A-F. -/
def isHexDigitB (c : Nat) : Bool :=
  (48 ≤ c && c ≤ 57) || (97 ≤ c && c ≤ 102) || (65 ≤ c && c ≤ 70)

/-- Character class of `first_tuple`: hex digit or the literal '#'. -/
def isTupleChar (c : Nat) : Bool := isHexDigitB c || c == 35

/-- A byte-stream parser in the style of winnow: on success it returns
the parsed value together with the unconsumed remainder of the input;
`none` is a (backtracking) parse error. -/
def Parser (α : Type) : Type := List Nat → Option (α × List Nat)

/-- winnow `take_while(1.., p)`: the maximal (possibly empty) run of
bytes satisfying `p`; fails when that run is empty. -/
def takeWhile1 (p : Nat → Bool) : Parser (List Nat) := fun input =>
  match input.takeWhile p with
  | [] => none
  | t => some (t, input.dropWhile p)

/-- `first_tuple` from `src/checker/git.rs`:
`take_while(1.., |c| c.is_hex_digit() || c == b'#')`. -/
def first_tuple : Parser (List Nat) := takeWhile1 isTupleChar

/-- Space or horizontal tab (winnow `space1` character class). -/
def isSpaceTabChar (c : Nat) : Bool := c == 32 || c == 9

/-- winnow `ascii::space1`: one or more spaces/tabs. -/
def space1 : Parser (List Nat) := takeWhile1 isSpaceTabChar

/-- Whitespace byte (winnow `multispace1` class): space, tab, LF, CR. -/
def isWsChar (c : Nat) : Bool := c == 32 || c == 9 || c == 10 || c == 13

/-- winnow `ascii::multispace1`: one or more whitespace bytes. -/
def multispace1 : Parser (List Nat) := takeWhile1 isWsChar

/-- Neither LF nor CR. -/
def notCrLf (c : Nat) : Bool := !(c == 10) && !(c == 13)

/-- Whether the byte run at the stop position of `till_line_ending` is
acceptable: end of input, a line feed, or a carriage return immediately
followed by a line feed; a stray carriage return is the error case
(nom/winnow lineage semantics). -/
def lineEndOk : List Nat → Bool
  | [] => true
  | c :: r2 =>
    if c = 13 then
      match r2 with
      | c2 :: _ => c2 == 10
      | [] => false
    else true

/-- winnow `ascii::till_line_ending`: the run of bytes before the line
ending, without consuming the ending.  Stops at LF or CR; a stray CR
that is not immediately followed by LF is a parse error.  Succeeds with
the whole rest at end of input. -/
def till_line_ending : Parser (List Nat) := fun input =>
  if lineEndOk (input.dropWhile notCrLf) then
    some (input.takeWhile notCrLf, input.dropWhile notCrLf)
  else none

/-- `kv_pair` from `src/checker/git.rs`:
`separated_pair(first_tuple, space1, till_line_ending)`. -/
def kv_pair : Parser (List Nat × List Nat) := fun input =>
  (first_tuple input).bind fun tok_r1 =>
    (space1 tok_r1.2).bind fun sp_r2 =>
      (till_line_ending sp_r2.2).map fun rem_r3 =>
        ((tok_r1.1, rem_r3.1), rem_r3.2)

/-- `single_line` from `src/checker/git.rs`:
`terminated(kv_pair, multispace1)`. -/
def single_line : Parser (List Nat × List Nat) := fun input =>
  (kv_pair input).bind fun kv_r =>
    (multispace1 kv_r.2).map fun ws_r2 => (kv_r.1, ws_r2.2)

/-- Loop of winnow `repeat(1.., p)` after the first success: keeps
parsing while `p` succeeds, stops (without consuming the failed
attempt) when it fails.  Mirrors winnow's infinite-loop guard: an
iteration that consumes nothing is an error.  The fuel argument is
always called with more fuel than the input length, so it never runs
out (`repeatAux_isSome`). -/
def repeatAux (p : Parser α) : Nat → List α → Parser (List α) :=
  fun fuel acc input =>
  match fuel with
  | 0 => none
  | fuel + 1 =>
    match p input with
    | none => some (acc.reverse, input)
    | some (a, rest) =>
      if rest.length < input.length then repeatAux p fuel (a :: acc) rest
      else none

/-- winnow `repeat(1.., p)`: at least one iteration is mandatory. -/
def repeat1 (p : Parser α) : Parser (List α) := fun input =>
  match p input with
  | none => none
  | some (a, rest) =>
    if rest.length < input.length then repeatAux p (rest.length + 1) [a] rest
    else none

/-- `parse_git_manifest` from `src/checker/git.rs`:
`repeat(1.., single_line)`. -/
def parse_git_manifest : Parser (List (List Nat × List Nat)) :=
  repeat1 single_line

/-- Strict UTF-8 decoding of a byte sequence, as Rust
`std::str::from_utf8`: rejects continuation bytes out of place,
overlong encodings, surrogates, and values above U+10FFFF. -/
def utf8Decode : List Nat → Option (List Char)
  | [] => some []
  | b :: rest =>
    if b < 0x80 then
      (utf8Decode rest).map (Char.ofNat b :: ·)
    else if b < 0xC2 then
      none
    else if b < 0xE0 then
      match rest with
      | b2 :: rest' =>
        if 0x80 ≤ b2 && b2 < 0xC0 then
          (utf8Decode rest').map (Char.ofNat ((b - 0xC0) * 0x40 + (b2 - 0x80)) :: ·)
        else none
      | _ => none
    else if b < 0xF0 then
      match rest with
      | b2 :: b3 :: rest' =>
        let lo2 := if b == 0xE0 then 0xA0 else 0x80
        let hi2 := if b == 0xED then 0xA0 else 0xC0
        if (lo2 ≤ b2 && b2 < hi2) && (0x80 ≤ b3 && b3 < 0xC0) then
          (utf8Decode rest').map
            (Char.ofNat ((b - 0xE0) * 0x1000 + (b2 - 0x80) * 0x40 + (b3 - 0x80)) :: ·)
        else none
      | _ => none
    else if b < 0xF5 then
      match rest with
      | b2 :: b3 :: b4 :: rest' =>
        let lo2 := if b == 0xF0 then 0x90 else 0x80
        let hi2 := if b == 0xF4 then 0x90 else 0xC0
        if (lo2 ≤ b2 && b2 < hi2) && (0x80 ≤ b3 && b3 < 0xC0) && (0x80 ≤ b4 && b4 < 0xC0) then
          (utf8Decode rest').map
            (Char.ofNat ((b - 0xF0) * 0x40000 + (b2 - 0x80) * 0x1000 +
              (b3 - 0x80) * 0x40 + (b4 - 0x80)) :: ·)
        else none
      | _ => none
    else none

/-- Decode a byte sequence to a string (Rust `std::str::from_utf8`). -/
def utf8String (l : List Nat) : Option String :=
  (utf8Decode l).map fun cs => String.mk cs

/-- `GitRefs` from `src/checker/git.rs`: a classified reference. -/
inductive GitRefs where
  | Tag (name : String)
  | Heads (name : String) (rev : String)
deriving DecidableEq, Repr

/-- `GitRefs::to_string`: the tag name, or the branch name. -/
def GitRefs.toStr : GitRefs → String
  | .Tag name => name
  | .Heads name _ => name

/-- The peeled-tag marker bytes b"^\x7b\x7d" (caret, open brace, close
brace). -/
def peeledSuffix : List Nat := [94, 123, 125]

/-- Classification of one decoded (hex, payload) pair, the body of the
`filter_map` in `collect_git_refs` (`src/checker/git.rs`). -/
def classifyRef (x : List Nat × List Nat) : Option GitRefs :=
  if peeledSuffix.isSuffixOf x.2 then none
  else if (bytes "refs/tags/").isPrefixOf x.2 then
    match utf8String (x.2.drop 10) with
    | some name => some (.Tag name)
    | none => none
  else if (bytes "refs/heads/").isPrefixOf x.2 then
    match utf8String (x.2.drop 11), utf8String x.1 with
    | some name, some rev => some (.Heads name rev)
    | _, _ => none
  else none

/-- `collect_git_refs` from `src/checker/git.rs`: parse the manifest,
then classify each pair, silently dropping pairs that classify to
nothing. -/
def collect_git_refs (input : List Nat) : Option (List GitRefs) :=
  (parse_git_manifest input).map fun (tuples, _) => tuples.filterMap classifyRef

/-- Byte-wise lexicographic comparison (Rust `str::cmp`), on the
code-point sequences; UTF-8 byte order coincides with code-point
order. -/
def lexNat : List Nat → List Nat → Ordering
  | [], [] => .eq
  | [], _ :: _ => .lt
  | _ :: _, [] => .gt
  | a :: as, b :: bs =>
    match compare a b with
    | .eq => lexNat as bs
    | o => o

/-- One dot-separated component of a parsed version: a numeric
component, or an alphanumeric component kept as its character codes. -/
inductive VPart where
  | num (n : Nat)
  | str (s : List Nat)
deriving DecidableEq, Repr

/-- Comparison of two version components: numbers numerically, text
lexicographically; a textual (pre-release style) component orders below
a numeric one. -/
def partCompare : VPart → VPart → Ordering
  | .num a, .num b => compare a b
  | .str a, .str b => lexNat a b
  | .str _, .num _ => .lt
  | .num _, .str _ => .gt

/-- How a missing component compares against a present one `p`: a
shorter version is below one extended by a numeric component, and above
one extended by a textual pre-release component (standard pre-release
precedence). -/
def endCompare : VPart → Ordering
  | .num _ => .lt
  | .str _ => .gt

/-- Component-wise comparison of two parsed versions. -/
def partsCompare : List VPart → List VPart → Ordering
  | [], [] => .eq
  | [], p :: _ => endCompare p
  | p :: _, [] => (endCompare p).swap
  | a :: as, b :: bs =>
    match partCompare a b with
    | .eq => partsCompare as bs
    | o => o

/-- ASCII decimal digit. -/
def isDigitChar (c : Char) : Bool := 48 ≤ c.toNat && c.toNat ≤ 57

/-- Numeric value of a digit run. -/
def natOfDigits (l : List Char) : Nat :=
  l.foldl (fun n c => n * 10 + (c.toNat - 48)) 0

/-- Split a character list at the dots. -/
def splitDotsAux : List Char → List Char → List (List Char)
  | [], acc => [acc.reverse]
  | c :: cs, acc =>
    if c = '.' then acc.reverse :: splitDotsAux cs []
    else splitDotsAux cs (c :: acc)

/-- A component is numeric when non-empty and all digits, otherwise it
is textual. -/
def toVPart (comp : List Char) : VPart :=
  if !comp.isEmpty && comp.all isDigitChar then .num (natOfDigits comp)
  else .str (comp.map Char.toNat)

/-- Modelled from the spec: the `version_compare` crate's parser (the
crate's source is not part of this repository).  Per the spec, a
version is a dot-separated sequence of numeric/alpha components; a
string that cannot be parsed as a semantic version (here: the empty
string) yields a parse failure. -/
def parseVersion (s : String) : Option (List VPart) :=
  if s.data.isEmpty then none
  else some ((splitDotsAux s.data []).map toVPart)

/-- `version_compare` from `src/checker/mod.rs`: semantic comparison
when both sides parse, with plain lexicographic byte comparison of the
two strings as the fallback (the crate call is modelled from the spec
via `parseVersion`/`partsCompare`). -/
def version_compare (a b : String) : Ordering :=
  match parseVersion a, parseVersion b with
  | some pa, some pb => partsCompare pa pb
  | _, _ => lexNat (a.data.map Char.toNat) (b.data.map Char.toNat)

theorem nat_compare_swap (a b : Nat) : compare a b = (compare b a).swap := by
  rcases Nat.lt_trichotomy a b with h | h | h
  · rw [Nat.compare_eq_lt.mpr h, Nat.compare_eq_gt.mpr h]
    rfl
  · subst h
    rw [show compare a a = Ordering.eq from Nat.compare_eq_eq.mpr rfl]
    rfl
  · rw [Nat.compare_eq_gt.mpr h, Nat.compare_eq_lt.mpr h]
    rfl

theorem lexNat_self (l : List Nat) : lexNat l l = .eq := by
  induction l with
  | nil => rfl
  | cons a as ih => simp [lexNat, Nat.compare_eq_eq.mpr rfl, ih]

theorem lexNat_swap (a b : List Nat) : lexNat a b = (lexNat b a).swap := by
  induction a generalizing b with
  | nil => cases b <;> rfl
  | cons x xs ih =>
    cases b with
    | nil => rfl
    | cons y ys =>
      simp only [lexNat, nat_compare_swap x y]
      cases compare y x <;> simp [Ordering.swap, ih]

theorem lexNat_eq_iff (a b : List Nat) : lexNat a b = .eq ↔ a = b := by
  induction a generalizing b with
  | nil => cases b <;> simp [lexNat]
  | cons x xs ih =>
    cases b with
    | nil => simp [lexNat]
    | cons y ys =>
      simp only [lexNat]
      cases h : compare x y with
      | eq =>
        have hxy := Nat.compare_eq_eq.mp h
        subst hxy
        simp [ih]
      | lt =>
        have hxy := Nat.compare_eq_lt.mp h
        constructor
        · intro hc
          exact absurd hc (by simp)
        · intro hc
          injection hc with h1 _
          omega
      | gt =>
        have hxy := Nat.compare_eq_gt.mp h
        constructor
        · intro hc
          exact absurd hc (by simp)
        · intro hc
          injection hc with h1 _
          omega

theorem lexNat_lt_trans {a b c : List Nat} (h1 : lexNat a b = .lt)
    (h2 : lexNat b c = .lt) : lexNat a c = .lt := by
  induction a generalizing b c with
  | nil =>
    cases b with
    | nil => simp [lexNat] at h1
    | cons y ys =>
      cases c with
      | nil => simp [lexNat] at h2
      | cons z zs => simp [lexNat]
  | cons x xs ih =>
    cases b with
    | nil => simp [lexNat] at h1
    | cons y ys =>
      cases c with
      | nil => simp [lexNat] at h2
      | cons z zs =>
        simp only [lexNat] at h1 h2 ⊢
        cases hxy : compare x y with
        | eq =>
          have := Nat.compare_eq_eq.mp hxy
          subst this
          rw [hxy] at h1
          cases hyz : compare x z with
          | eq =>
            have := Nat.compare_eq_eq.mp hyz
            subst this
            rw [hyz] at h2
            exact ih h1 h2
          | lt => rfl
          | gt =>
            rw [hyz] at h2
            exact absurd h2 (by simp)
        | lt =>
          cases hyz : compare y z with
          | eq =>
            have := Nat.compare_eq_eq.mp hyz
            subst this
            rw [hxy]
          | lt =>
            have hx := Nat.compare_eq_lt.mp hxy
            have hy := Nat.compare_eq_lt.mp hyz
            rw [Nat.compare_eq_lt.mpr (Nat.lt_trans hx hy)]
          | gt =>
            rw [hyz] at h2
            exact absurd h2 (by simp)
        | gt =>
          rw [hxy] at h1
          exact absurd h1 (by simp)

theorem partCompare_self (p : VPart) : partCompare p p = .eq := by
  cases p with
  | num n => simp [partCompare, Nat.compare_eq_eq.mpr rfl]
  | str s => simp [partCompare, lexNat_self]

theorem partCompare_swap (p q : VPart) :
    partCompare p q = (partCompare q p).swap := by
  cases p <;> cases q <;>
    first
    | exact nat_compare_swap _ _
    | exact lexNat_swap _ _
    | rfl

theorem partCompare_eq_iff (p q : VPart) : partCompare p q = .eq ↔ p = q := by
  cases p <;> cases q <;>
    simp [partCompare, Nat.compare_eq_eq, lexNat_eq_iff]

theorem partCompare_lt_trans {p q r : VPart} (h1 : partCompare p q = .lt)
    (h2 : partCompare q r = .lt) : partCompare p r = .lt := by
  cases p <;> cases q <;> cases r <;>
    first
    | rfl
    | exact Ordering.noConfusion h1
    | exact Ordering.noConfusion h2
    | exact Nat.compare_eq_lt.mpr
        (Nat.lt_trans (Nat.compare_eq_lt.mp h1) (Nat.compare_eq_lt.mp h2))
    | exact lexNat_lt_trans h1 h2

theorem partsCompare_self (l : List VPart) : partsCompare l l = .eq := by
  induction l with
  | nil => rfl
  | cons p ps ih => simp [partsCompare, partCompare_self, ih]

theorem partsCompare_swap (a b : List VPart) :
    partsCompare a b = (partsCompare b a).swap := by
  induction a generalizing b with
  | nil =>
    cases b with
    | nil => rfl
    | cons q qs => exact Ordering.swap_swap.symm
  | cons p ps ih =>
    cases b with
    | nil => rfl
    | cons q qs =>
      simp only [partsCompare, partCompare_swap p q]
      cases partCompare q p with
      | eq => exact ih qs
      | lt => rfl
      | gt => rfl

theorem partsCompare_eq_iff (a b : List VPart) :
    partsCompare a b = .eq ↔ a = b := by
  induction a generalizing b with
  | nil =>
    cases b with
    | nil => simp [partsCompare]
    | cons q qs =>
      simp only [partsCompare]
      cases q <;> simp [endCompare]
  | cons p ps ih =>
    cases b with
    | nil =>
      simp only [partsCompare]
      cases p <;> simp [endCompare, Ordering.swap]
    | cons q qs =>
      simp only [partsCompare]
      cases h : partCompare p q with
      | eq =>
        have hpq := (partCompare_eq_iff p q).mp h
        subst hpq
        simp [ih]
      | lt =>
        have hne : p ≠ q := by
          intro he
          subst he
          rw [partCompare_self p] at h
          exact Ordering.noConfusion h
        constructor
        · intro hc
          exact Ordering.noConfusion hc
        · intro hc
          injection hc with h1 _
          exact (hne h1).elim
      | gt =>
        have hne : p ≠ q := by
          intro he
          subst he
          rw [partCompare_self p] at h
          exact Ordering.noConfusion h
        constructor
        · intro hc
          exact Ordering.noConfusion hc
        · intro hc
          injection hc with h1 _
          exact (hne h1).elim

theorem partsCompare_lt_trans {a b c : List VPart}
    (h1 : partsCompare a b = .lt) (h2 : partsCompare b c = .lt) :
    partsCompare a c = .lt := by
  induction a generalizing b c with
  | nil =>
    cases b with
    | nil => simp [partsCompare] at h1
    | cons q bs =>
      simp only [partsCompare] at h1
      cases q with
      | str s => simp [endCompare] at h1
      | num nq =>
        cases c with
        | nil =>
          simp [partsCompare, endCompare, Ordering.swap] at h2
        | cons r cs =>
          simp only [partsCompare] at h2
          simp only [partsCompare]
          cases r with
          | num nr => simp [endCompare]
          | str s =>
            simp only [partCompare] at h2
            exact absurd h2 (by simp)
  | cons p as ih =>
    cases b with
    | nil =>
      cases c with
      | nil => simp [partsCompare] at h2
      | cons r cs =>
        simp only [partsCompare] at h1 h2 ⊢
        cases p with
        | num np => simp [endCompare, Ordering.swap] at h1
        | str sp =>
          cases r with
          | str s => simp [endCompare] at h2
          | num nr => simp [partCompare]
    | cons q bs =>
      cases c with
      | nil =>
        simp only [partsCompare] at h1 h2 ⊢
        cases q with
        | num nq => simp [endCompare, Ordering.swap] at h2
        | str sq =>
          cases p with
          | num np =>
            simp only [partCompare] at h1
            exact absurd h1 (by simp)
          | str sp => simp [endCompare, Ordering.swap]
      | cons r cs =>
        simp only [partsCompare] at h1 h2 ⊢
        cases hpq : partCompare p q with
        | eq =>
          have := (partCompare_eq_iff p q).mp hpq
          subst this
          rw [hpq] at h1
          cases hqr : partCompare p r with
          | eq =>
            have := (partCompare_eq_iff p r).mp hqr
            subst this
            rw [hqr] at h2
            exact ih h1 h2
          | lt => rfl
          | gt =>
            rw [hqr] at h2
            exact absurd h2 (by simp)
        | lt =>
          cases hqr : partCompare q r with
          | eq =>
            have := (partCompare_eq_iff q r).mp hqr
            subst this
            rw [hpq]
          | lt => rw [partCompare_lt_trans hpq hqr]
          | gt =>
            rw [hqr] at h2
            exact absurd h2 (by simp)
        | gt =>
          rw [hpq] at h1
          exact absurd h1 (by simp)

theorem version_compare_self (a : String) : version_compare a a = .eq := by
  unfold version_compare
  cases parseVersion a with
  | none => exact lexNat_self _
  | some pa => exact partsCompare_self pa

theorem version_compare_swap (a b : String) :
    version_compare a b = (version_compare b a).swap := by
  unfold version_compare
  cases parseVersion a <;> cases parseVersion b
  · exact lexNat_swap _ _
  · exact lexNat_swap _ _
  · exact lexNat_swap _ _
  · exact partsCompare_swap _ _

theorem parseVersion_eq_none_iff (s : String) :
    parseVersion s = none ↔ s.data = [] := by
  unfold parseVersion
  cases h : s.data <;> simp [h]

theorem version_compare_eq_parts {a b : String} {pa pb : List VPart}
    (ha : parseVersion a = some pa) (hb : parseVersion b = some pb) :
    version_compare a b = partsCompare pa pb := by
  unfold version_compare
  rw [ha, hb]

theorem version_compare_eq_lex_left {a b : String}
    (ha : parseVersion a = none) :
    version_compare a b =
      lexNat (a.data.map Char.toNat) (b.data.map Char.toNat) := by
  unfold version_compare
  rw [ha]

theorem version_compare_eq_lex_right {a b : String}
    (hb : parseVersion b = none) :
    version_compare a b =
      lexNat (a.data.map Char.toNat) (b.data.map Char.toNat) := by
  unfold version_compare
  rw [hb]
  cases parseVersion a <;> rfl

theorem lexNat_nil_ne_gt (l : List Nat) : lexNat [] l ≠ .gt := by
  cases l <;> simp [lexNat]

theorem version_compare_le_trans {a b c : String}
    (h1 : version_compare a b ≠ .gt) (h2 : version_compare b c ≠ .gt) :
    version_compare a c ≠ .gt := by
  cases ha : parseVersion a with
  | none =>
    have hae : a.data = [] := (parseVersion_eq_none_iff a).mp ha
    rw [version_compare_eq_lex_left ha, hae]
    exact lexNat_nil_ne_gt _
  | some pa =>
    have hane : a.data ≠ [] := by
      intro he
      rw [(parseVersion_eq_none_iff a).mpr he] at ha
      exact Option.noConfusion ha
    cases hb : parseVersion b with
    | none =>
      have hbe : b.data = [] := (parseVersion_eq_none_iff b).mp hb
      rw [version_compare_eq_lex_right hb, hbe] at h1
      cases had : a.data with
      | nil => exact absurd had hane
      | cons x xs =>
        rw [had] at h1
        simp [lexNat] at h1
    | some pb =>
      cases hc : parseVersion c with
      | none =>
        have hce : c.data = [] := (parseVersion_eq_none_iff c).mp hc
        rw [version_compare_eq_lex_right hc, hce] at h2
        have hbne : b.data ≠ [] := by
          intro he
          rw [(parseVersion_eq_none_iff b).mpr he] at hb
          exact Option.noConfusion hb
        cases hbd : b.data with
        | nil => exact absurd hbd hbne
        | cons y ys =>
          rw [hbd] at h2
          simp [lexNat] at h2
      | some pc =>
        rw [version_compare_eq_parts ha hb] at h1
        rw [version_compare_eq_parts hb hc] at h2
        rw [version_compare_eq_parts ha hc]
        cases hab : partsCompare pa pb with
        | gt => exact absurd hab h1
        | eq =>
          have hpe := (partsCompare_eq_iff pa pb).mp hab
          subst hpe
          exact h2
        | lt =>
          cases hbc : partsCompare pb pc with
          | gt => exact absurd hbc h2
          | eq =>
            have hpe := (partsCompare_eq_iff pb pc).mp hbc
            subst hpe
            simp [hab]
          | lt => simp [partsCompare_lt_trans hab hbc]

/-- Insertion of an element into a comparator-sorted list, keeping the
list sorted: the element is placed before the first entry it does not
compare greater than. -/
def insertSorted (cmp : α → α → Ordering) (a : α) : List α → List α
  | [] => [a]
  | b :: bs =>
    match cmp a b with
    | .gt => b :: insertSorted cmp a bs
    | _ => a :: b :: bs

/-- Model of Rust `sort_unstable_by`: a comparator sort (insertion
sort).  For a comparator that is a total preorder this produces a
sorted permutation; the claims below are stated through the
comparator-maximum so that unstable tie order is irrelevant. -/
def sortBy (cmp : α → α → Ordering) : List α → List α
  | [] => []
  | a :: as => insertSorted cmp a (sortBy cmp as)

theorem insertSorted_mem (cmp : α → α → Ordering) (a x : α) (l : List α) :
    x ∈ insertSorted cmp a l ↔ x = a ∨ x ∈ l := by
  induction l with
  | nil => simp [insertSorted]
  | cons b bs ih =>
    simp only [insertSorted]
    cases cmp a b <;> simp [List.mem_cons, ih] <;> tauto

theorem sortBy_mem (cmp : α → α → Ordering) (x : α) (l : List α) :
    x ∈ sortBy cmp l ↔ x ∈ l := by
  induction l with
  | nil => simp [sortBy]
  | cons a as ih => simp [sortBy, insertSorted_mem, ih]

theorem insertSorted_ne_nil (cmp : α → α → Ordering) (a : α) (l : List α) :
    insertSorted cmp a l ≠ [] := by
  cases l with
  | nil => simp [insertSorted]
  | cons b bs =>
    simp only [insertSorted]
    cases cmp a b <;> simp

theorem sortBy_ne_nil (cmp : α → α → Ordering) (l : List α) (h : l ≠ []) :
    sortBy cmp l ≠ [] := by
  cases l with
  | nil => exact absurd rfl h
  | cons a as => exact insertSorted_ne_nil cmp a (sortBy cmp as)

theorem insertSorted_pairwise (cmp : α → α → Ordering)
    (hswap : ∀ x y, cmp x y = (cmp y x).swap)
    (htrans : ∀ x y z, cmp x y ≠ .gt → cmp y z ≠ .gt → cmp x z ≠ .gt)
    (a : α) (l : List α) (h : l.Pairwise fun x y => cmp x y ≠ .gt) :
    (insertSorted cmp a l).Pairwise fun x y => cmp x y ≠ .gt := by
  induction l with
  | nil => simp [insertSorted]
  | cons b bs ih =>
    cases h with
    | cons hb hbs =>
      simp only [insertSorted]
      cases hab : cmp a b with
      | gt =>
        have hba : cmp b a ≠ .gt := by
          rw [hswap b a, hab]
          simp [Ordering.swap]
        refine List.Pairwise.cons ?_ (ih hbs)
        intro y hy
        rcases (insertSorted_mem cmp a y bs).mp hy with rfl | hy'
        · exact hba
        · exact hb y hy'
      | lt =>
        refine List.Pairwise.cons ?_ (List.Pairwise.cons hb hbs)
        intro y hy
        rcases List.mem_cons.mp hy with rfl | hy'
        · simp [hab]
        · exact htrans a b y (by simp [hab]) (hb y hy')
      | eq =>
        refine List.Pairwise.cons ?_ (List.Pairwise.cons hb hbs)
        intro y hy
        rcases List.mem_cons.mp hy with rfl | hy'
        · simp [hab]
        · exact htrans a b y (by simp [hab]) (hb y hy')

theorem sortBy_pairwise (cmp : α → α → Ordering)
    (hswap : ∀ x y, cmp x y = (cmp y x).swap)
    (htrans : ∀ x y z, cmp x y ≠ .gt → cmp y z ≠ .gt → cmp x z ≠ .gt)
    (l : List α) :
    (sortBy cmp l).Pairwise fun x y => cmp x y ≠ .gt := by
  induction l with
  | nil => simp [sortBy]
  | cons a as ih => exact insertSorted_pairwise cmp hswap htrans a _ ih

theorem swap_refl_ne_gt (cmp : α → α → Ordering)
    (hswap : ∀ x y, cmp x y = (cmp y x).swap) (x : α) : cmp x x ≠ .gt := by
  intro hgt
  have h := hswap x x
  rw [hgt] at h
  exact Ordering.noConfusion h

theorem pairwise_getLast_max (cmp : α → α → Ordering)
    (hrefl : ∀ x, cmp x x ≠ .gt) :
    ∀ (l : List α), (l.Pairwise fun x y => cmp x y ≠ .gt) →
      ∀ m, l.getLast? = some m → ∀ x ∈ l, cmp x m ≠ .gt := by
  intro l
  induction l with
  | nil => simp
  | cons a as ih =>
    intro hp m hm x hx
    cases as with
    | nil =>
      simp only [List.getLast?_singleton, Option.some.injEq] at hm
      subst hm
      rcases List.mem_singleton.mp hx with rfl
      exact hrefl x
    | cons b bs =>
      have hm' : (b :: bs).getLast? = some m := by
        rw [List.getLast?_cons_cons] at hm
        exact hm
      cases hp with
      | cons ha hp' =>
        rcases List.mem_cons.mp hx with rfl | hx'
        · have hmm : m ∈ b :: bs := by
            have hne : (b :: bs) ≠ [] := by simp
            rw [List.getLast?_eq_getLast _ hne] at hm'
            have := List.getLast_mem hne
            injection hm' with he
            rwa [he] at this
          exact ha m hmm
        · exact ih hp' m hm' x hx'

theorem pairwise_head_max (cmp : α → α → Ordering)
    (hrefl : ∀ x, cmp x x ≠ .gt) (l : List α)
    (hp : l.Pairwise fun x y => cmp x y ≠ .gt) (m : α)
    (hm : l.head? = some m) : ∀ x ∈ l, cmp m x ≠ .gt := by
  cases l with
  | nil => simp at hm
  | cons a as =>
    simp only [List.head?_cons, Option.some.injEq] at hm
    subst hm
    cases hp with
    | cons ha hp' =>
      intro x hx
      rcases List.mem_cons.mp hx with rfl | hx'
      · exact hrefl x
      · exact ha x hx'

/-- The sorted list's last element is a comparator-maximum of the
original list. -/
theorem sortBy_getLast_max (cmp : α → α → Ordering)
    (hswap : ∀ x y, cmp x y = (cmp y x).swap)
    (htrans : ∀ x y z, cmp x y ≠ .gt → cmp y z ≠ .gt → cmp x z ≠ .gt)
    (l : List α) (hne : l ≠ []) :
    ∃ m, (sortBy cmp l).getLast? = some m ∧ m ∈ l ∧
      ∀ x ∈ l, cmp x m ≠ .gt := by
  have hsne : sortBy cmp l ≠ [] := sortBy_ne_nil cmp l hne
  refine ⟨(sortBy cmp l).getLast hsne, List.getLast?_eq_getLast _ hsne, ?_, ?_⟩
  · exact (sortBy_mem cmp _ l).mp (List.getLast_mem hsne)
  · intro x hx
    exact pairwise_getLast_max cmp (swap_refl_ne_gt cmp hswap)
      (sortBy cmp l) (sortBy_pairwise cmp hswap htrans l) _
      (List.getLast?_eq_getLast _ hsne) x ((sortBy_mem cmp x l).mpr hx)

/-- The sorted list's head element is a comparator-minimum of the
original list (used with a flipped comparator for descending sorts). -/
theorem sortBy_head_min (cmp : α → α → Ordering)
    (hswap : ∀ x y, cmp x y = (cmp y x).swap)
    (htrans : ∀ x y z, cmp x y ≠ .gt → cmp y z ≠ .gt → cmp x z ≠ .gt)
    (l : List α) (hne : l ≠ []) :
    ∃ m, (sortBy cmp l).head? = some m ∧ m ∈ l ∧
      ∀ x ∈ l, cmp m x ≠ .gt := by
  have hsne : sortBy cmp l ≠ [] := sortBy_ne_nil cmp l hne
  cases hs : sortBy cmp l with
  | nil => exact absurd hs hsne
  | cons m s =>
    refine ⟨m, by simp, ?_, ?_⟩
    · have : m ∈ sortBy cmp l := by rw [hs]; exact List.mem_cons_self m s
      exact (sortBy_mem cmp m l).mp this
    · intro x hx
      have hp := sortBy_pairwise cmp hswap htrans l
      rw [hs] at hp
      exact pairwise_head_max cmp (swap_refl_ne_gt cmp hswap) (m :: s) hp m
        (by simp) x (by rw [← hs]; exact (sortBy_mem cmp x l).mpr hx)

/-- C4: for every pair of version strings the comparator yields a
definite result (totality), the result on (a, b) is the inverse of the
result on (b, a), and comparison of a string with itself is Equal.
The underlying semantic comparison is modelled from the spec, since the
version-compare crate is an external dependency. -/
theorem c4_version_compare_total_swap_refl :
    ∀ a b : String,
      (version_compare a b = .lt ∨ version_compare a b = .eq ∨
        version_compare a b = .gt) ∧
      version_compare a b = (version_compare b a).swap ∧
      version_compare a a = .eq := by
  intro a b
  refine ⟨?_, version_compare_swap a b, version_compare_self a⟩
  cases version_compare a b
  · exact Or.inl rfl
  · exact Or.inr (Or.inl rfl)
  · exact Or.inr (Or.inr rfl)

/-- Model of a compiled regex (the regex crate is an external
dependency).  `capturesLen` is `Regex::captures_len`, the number of
capture-group slots including the implicit whole-match group 0.
`captures` is `Regex::captures` applied to a haystack: `none` when the
pattern does not match, otherwise the list of groups (index 0 the whole
match, index i the text of group i when it participated).
`capturesAll` is `Regex::captures_iter`: the group lists of every
non-overlapping match in order.  `Regex::is_match` coincides with
`(captures x).isSome` per the regex crate's documentation. -/
structure RegexModel where
  capturesLen : Nat
  captures : String → Option (List (Option String))
  capturesAll : String → List (List (Option String))

/-- `Regex::is_match`, expressed through `captures`. -/
def RegexModel.isMatch (r : RegexModel) (x : String) : Bool :=
  (r.captures x).isSome

/-- `Captures::get(1)` followed by `as_str`: the text of capture group
1 when present and participating. -/
def capturesGet1 (g : List (Option String)) : Option String :=
  (g.get? 1).join

/-- Regex compilation (`Regex::new`): supplied as a parameter, `.error`
modelling a pattern that fails to compile. -/
def RegexCompile : Type := String → Except String RegexModel

/-- `extract_versions` from `src/checker/mod.rs`: compile the pattern
once; with more than one capture-group slot keep the first capture
group of every matching string, otherwise keep every matching string
whole. -/
def extract_versions (compile : RegexCompile) (pattern : String)
    (collection : List String) : Except String (List String) :=
  match compile pattern with
  | .error e => .error e
  | .ok regex =>
    .ok (if regex.capturesLen > 1 then
      collection.filterMap fun x => (regex.captures x).bind capturesGet1
    else
      collection.filterMap fun x => if regex.isMatch x then some x else none)

/-- C5: with a compiled pattern having more than one capture-group
slot, the extractor returns the first-capture-group text of each
matching string (non-matches and non-participating group 1 dropped);
otherwise it returns each matching string unmodified in its entirety;
a pattern that fails to compile yields an error. -/
theorem c5_extract_versions_policy (compile : RegexCompile)
    (pattern : String) (collection : List String) :
    (∀ e, compile pattern = .error e →
      extract_versions compile pattern collection = .error e) ∧
    (∀ r, compile pattern = .ok r →
      (1 < r.capturesLen →
        extract_versions compile pattern collection =
          .ok (collection.filterMap fun x => (r.captures x).bind capturesGet1)) ∧
      (¬ 1 < r.capturesLen →
        extract_versions compile pattern collection =
          .ok (collection.filter fun x => (r.captures x).isSome))) := by
  constructor
  · intro e he
    unfold extract_versions
    rw [he]
  · intro r hr
    constructor
    · intro hlen
      unfold extract_versions
      rw [hr]
      simp [hlen]
    · intro hlen
      unfold extract_versions
      rw [hr]
      have : ¬ r.capturesLen > 1 := hlen
      simp only [gt_iff_lt, this, if_false]
      congr 1
      simp only [RegexModel.isMatch]
      induction collection with
      | nil => rfl
      | cons x xs ih =>
        simp only [List.filterMap_cons, List.filter_cons]
        by_cases hb : (r.captures x).isSome
        · simp [hb, ih]
        · simp [hb, ih]

/-- A concrete regex model with one explicit capture group, matching
exactly "v1.0" with group 1 text "1.0". -/
def capRegexExample : RegexModel :=
  ⟨2, fun x => if x = "v1.0" then some [some "v1.0", some "1.0"] else none,
   fun _ => []⟩

/-- A concrete compile function: "bad" fails to compile, "cap" compiles
to `capRegexExample`, anything else to a plain no-group regex. -/
def compileExample : RegexCompile := fun p =>
  if p = "bad" then .error "invalid pattern"
  else if p = "cap" then .ok capRegexExample
  else .ok ⟨1, fun x => if x = "v1.0" then some [some "v1.0"] else none,
            fun _ => []⟩

/-- Witness for C5 at a concrete compile function, pattern and
collection: the single-capture-group pattern extracts group-1 text. -/
theorem c5_extract_versions_policy_witness :
    extract_versions compileExample "cap" ["v1.0", "beta"] = .ok ["1.0"] := by
  have h := ((c5_extract_versions_policy compileExample "cap"
    ["v1.0", "beta"]).2 capRegexExample (by rfl)).1 (by decide)
  rw [h]
  rfl

/-- An HTTP response as seen by a checker: status code, the optional
Content-Length, and the body. -/
structure HttpResponse (β : Type) where
  status : Nat
  contentLength : Option Nat
  body : β

/-- reqwest `error_for_status_ref`: an error exactly for client-error
(4xx) and server-error (5xx) status codes. -/
def errorForStatus (s : Nat) : Bool := 400 ≤ s && s ≤ 599

/-- The configuration map handed to each checker
(`HashMap<String, String>` lookups). -/
def Config : Type := String → Option String

/-- `AnityaData` from `src/checker/anitya.rs`. -/
structure AnityaData where
  id : Nat
  stable_versions : List String
  versions : List String

/-- `AnityaChecker` from `src/checker/anitya.rs`. -/
structure AnityaChecker where
  id : Nat
  stable_only : Bool
deriving DecidableEq

/-- Rust `str::parse::<usize>` on a decimal string (the std parser's
plus-sign and overflow edge cases are immaterial to the claims). -/
def parseNat? (s : String) : Option Nat :=
  if !s.data.isEmpty && s.data.all isDigitChar then some (natOfDigits s.data)
  else none

/-- `AnityaChecker::new`: requires `id` (parsed as an unsigned
integer); `stable_only` is true when absent, else compared to the exact
string "true". -/
def AnityaChecker.new (config : Config) : Except String AnityaChecker :=
  match config "id" with
  | none => .error "Please specify Anitya project ID!"
  | some s =>
    match parseNat? s with
    | none => .error "invalid Anitya project ID"
    | some id =>
      .ok ⟨id, match config "stable_only" with
               | some v => v == "true"
               | none => true⟩

/-- `AnityaChecker::check`: the JSON decoding of the response body is
supplied as a parameter (serde is an external crate). -/
def AnityaChecker.check (c : AnityaChecker)
    (parse : String → Option AnityaData) (resp : HttpResponse String) :
    Except String String :=
  if errorForStatus resp.status then .error "HTTP status error"
  else
    match parse resp.body with
    | none => .error "malformed JSON response"
    | some payload =>
      if payload.id ≠ c.id then
        .error "requested ID and received ID mismatch"
      else
        match (if c.stable_only then payload.stable_versions
               else payload.versions) with
        | [] => .error "Anitya did not return any stable versions!"
        | v :: _ => .ok v

/-- `GitHubChecker` from `src/checker/github.rs`. -/
structure GitHubChecker where
  repo : String
  pattern : Option String
  sort_version : Bool
  branch : Option String
deriving DecidableEq

/-- `GitHubChecker::new`: requires `repo`; `sort_version` is false when
absent, else compared to the exact string "true". -/
def GitHubChecker.new (config : Config) : Except String GitHubChecker :=
  match config "repo" with
  | none => .error "Please specify Repository slug!"
  | some repo =>
    .ok ⟨repo, config "pattern",
         (match config "sort_version" with
          | some s => s == "true"
          | none => false),
         config "branch"⟩

/-- Rust `repo.splitn(2, a-slash)`: the part before the first slash,
and (when a slash exists) everything after it. -/
def splitSlug (repo : String) : String × Option String :=
  let pre := repo.data.takeWhile fun c => c ≠ '/'
  let rest := repo.data.dropWhile fun c => c ≠ '/'
  match rest with
  | [] => (String.mk pre, none)
  | _ :: tail => (String.mk pre, some (String.mk tail))

/-- `GitHubChecker::check_tags`: slug validation, mandatory token,
status check, JSON decode (parameter), optional extract_versions
filter, emptiness check, optional descending sort, first element. -/
def GitHubChecker.check_tags (c : GitHubChecker) (token : Option String)
    (compile : RegexCompile) (parseTags : String → Option (List String))
    (resp : HttpResponse String) : Except String String :=
  match (splitSlug c.repo).2 with
  | none => .error "Repository name missing"
  | some _ =>
    match token with
    | none => .error "GitHub checker requires authentication!"
    | some _ =>
      if errorForStatus resp.status then .error "HTTP status error"
      else
        match parseTags resp.body with
        | none => .error "malformed JSON response"
        | some nodes =>
          match (match c.pattern with
                 | some p => extract_versions compile p nodes
                 | none => .ok nodes) with
          | .error e => .error e
          | .ok payload =>
            if payload.isEmpty then .error "GitHub did not return any tags!"
            else
              match (if c.sort_version then
                       sortBy (fun b a => version_compare a b) payload
                     else payload).head? with
              | some v => .ok v
              | none => .error "empty payload"

/-- `GitHubChecker::check_rev`: slug validation, mandatory token,
status check, JSON decode (parameter), first commit sha. -/
def GitHubChecker.check_rev (c : GitHubChecker) (token : Option String)
    (parseShas : String → Option (List String)) (resp : HttpResponse String) :
    Except String String :=
  match (splitSlug c.repo).2 with
  | none => .error "Repository name missing"
  | some _ =>
    match token with
    | none => .error "GitHub checker requires authentication!"
    | some _ =>
      if errorForStatus resp.status then .error "HTTP status error"
      else
        match parseShas resp.body with
        | none => .error "malformed JSON response"
        | some commits =>
          match commits.head? with
          | none => .error "Repo commits is empty"
          | some sha => .ok sha

/-- `GitHubChecker::check`: branch configured selects the commit
lookup, otherwise the tag lookup. -/
def GitHubChecker.check (c : GitHubChecker) (token : Option String)
    (compile : RegexCompile)
    (parseTags parseShas : String → Option (List String))
    (resp : HttpResponse String) : Except String String :=
  match c.branch with
  | some _ => c.check_rev token parseShas resp
  | none => c.check_tags token compile parseTags resp

/-- `GitLabChecker` from `src/checker/gitlab.rs` (`instance` renamed,
it is a Lean keyword). -/
structure GitLabChecker where
  instanceUrl : String
  repo : String
  pattern : Option String
  sort_version : Bool
deriving DecidableEq

/-- `GitLabChecker::new`: requires `repo`; `instance` defaults to the
gitlab.com endpoint; `sort_version` is false when absent, else compared
to the exact string "true". -/
def GitLabChecker.new (config : Config) : Except String GitLabChecker :=
  match config "repo" with
  | none => .error "Please specify Repository slug or Project ID!"
  | some repo =>
    .ok ⟨(config "instance").getD "https://gitlab.com", repo,
         config "pattern",
         (match config "sort_version" with
          | some s => s == "true"
          | none => false)⟩

/-- `GitLabChecker::check`: the source decodes the JSON body without
any status check, filters by a self-compiled regex (plain `is_match`,
not extract_versions), requires a non-empty list, optionally sorts
descending and returns the first element. -/
def GitLabChecker.check (c : GitLabChecker) (compile : RegexCompile)
    (parseTags : String → Option (List String)) (resp : HttpResponse String) :
    Except String String :=
  match parseTags resp.body with
  | none => .error "malformed JSON response"
  | some payload0 =>
    match ((match c.pattern with
           | some p =>
             match compile p with
             | .error e => .error e
             | .ok regex => .ok (payload0.filter fun x => regex.isMatch x)
           | none => .ok payload0) : Except String (List String)) with
    | .error e => .error e
    | .ok payload =>
      if payload.length < 1 then .error "GitLab did not return any tags!"
      else
        match (if c.sort_version then
                 sortBy (fun b a => version_compare a b) payload
               else payload).head? with
        | some v => .ok v
        | none => .error "empty payload"

/-- `GitWebChecker` from `src/checker/gitweb.rs`. -/
structure GitWebChecker where
  url : String
  pattern : Option String

/-- `GitWebChecker::new`: requires `url`. -/
def GitWebChecker.new (config : Config) : Except String GitWebChecker :=
  match config "url" with
  | none => .error "Please specify GitWeb project URL!"
  | some url => .ok ⟨url, config "pattern"⟩

/-- Oversized-body guard shared by the GitWeb and HTML checkers: a
declared Content-Length above 10 MiB is rejected. -/
def bodyTooLarge (resp : HttpResponse String) : Bool :=
  match resp.contentLength with
  | some len => len > 10 * 1024 * 1024
  | none => false

/-- `GitWebChecker::check`: kuchiki HTML parsing plus the `.name`
class selection is supplied as the total function `selectNames` (the
constant selector always compiles, so the selector-error branch of the
source is unreachable).  The source never consults the HTTP status
here.  One candidate is returned unchanged; otherwise the candidates
are sorted ascending by the version comparator and the last one is
returned. -/
def GitWebChecker.check (c : GitWebChecker) (compile : RegexCompile)
    (selectNames : String → List String) (resp : HttpResponse String) :
    Except String String :=
  if bodyTooLarge resp then .error "HTML body too large"
  else
    match (match c.pattern with
           | some p => extract_versions compile p (selectNames resp.body)
           | none => .ok (selectNames resp.body)) with
    | .error e => .error e
    | .ok versions =>
      match versions with
      | [] => .error "No tags found."
      | [v] => .ok v
      | _ =>
        match (sortBy version_compare versions).getLast? with
        | some v => .ok v
        | none => .error "empty sorted list"

/-- `HTMLChecker` from `src/checker/html.rs`. -/
structure HTMLChecker where
  url : String
  pattern : String

/-- `HTMLChecker::new`: requires `url` and `pattern`. -/
def HTMLChecker.new (config : Config) : Except String HTMLChecker :=
  match config "url" with
  | none => .error "Please specify HTML URL!"
  | some url =>
    match config "pattern" with
    | none => .error "Please specify Regex pattern for matching versions!"
    | some pattern => .ok ⟨url, pattern⟩

/-- The version-collection loop of `HTMLChecker::check`: group 1 of
every match, with the first match lacking group 1 aborting the loop
(the `ok_or(...)?` in the source). -/
def collectGroup1 : List (List (Option String)) → Option (List String)
  | [] => some []
  | g :: gs =>
    match capturesGet1 g with
    | none => none
    | some v => (collectGroup1 gs).map (v :: ·)

/-- `HTMLChecker::check`: size guard, status check, pattern compile,
`captures_iter` over the whole body with a mandatory capture group 1
for every match, then single-candidate shortcut or ascending sort and
last element. -/
def HTMLChecker.check (c : HTMLChecker) (compile : RegexCompile)
    (resp : HttpResponse String) : Except String String :=
  if bodyTooLarge resp then .error "HTML body too large"
  else if errorForStatus resp.status then .error "HTTP status error"
  else
    match compile c.pattern with
    | .error e => .error e
    | .ok regex =>
      match collectGroup1 (regex.capturesAll resp.body) with
      | none => .error "Pattern did not capture anything."
      | some versions =>
        match versions with
        | [] => .error "No version matches the pattern."
        | [v] => .ok v
        | _ =>
          match (sortBy version_compare versions).getLast? with
          | some v => .ok v
          | none => .error "empty sorted list"

/-- `GitChecker` from `src/checker/git.rs`. -/
structure GitChecker where
  url : String
  branch : Option String
  pattern : Option String

/-- `GitChecker::new`: requires `url`. -/
def GitChecker.new (config : Config) : Except String GitChecker :=
  match config "url" with
  | none => .error "Please specify Repository URL!"
  | some url => .ok ⟨url, config "branch", config "pattern"⟩

/-- The branch filter of `GitChecker::check`: revisions of decoded
Heads entries whose name equals the configured branch. -/
def branchRevs (refs : List GitRefs) (b : String) : List String :=
  refs.filterMap fun x =>
    match x with
    | GitRefs.Heads n v => if n = b then some v else none
    | _ => none

/-- The tag filter of `GitChecker::check`: names of decoded Tag
entries. -/
def tagNames (refs : List GitRefs) : List String :=
  refs.filterMap fun x =>
    match x with
    | GitRefs.Tag t => some t
    | _ => none

/-- `GitChecker::check`: status check, pkt-line decode and
classification; with a configured branch the first exactly-matching
Heads revision is returned verbatim (Tag entries ignored), failing when
none matches; without a branch the Tag names are optionally filtered by
`extract_versions`, must be non-empty, are sorted descending by the
version comparator, and the first is returned. -/
def GitChecker.check (c : GitChecker) (compile : RegexCompile)
    (resp : HttpResponse (List Nat)) : Except String String :=
  if errorForStatus resp.status then .error "HTTP status error"
  else
    match collect_git_refs resp.body with
    | none => .error "Parser error"
    | some refs =>
      match c.branch with
      | some b =>
        match branchRevs refs b with
        | [] => .error "Git branch did not return any rev!"
        | rev :: _ => .ok rev
      | none =>
        match (match c.pattern with
               | some p => extract_versions compile p (tagNames refs)
               | none => .ok (tagNames refs)) with
        | .error e => .error e
        | .ok head =>
          if head.isEmpty then .error "Git did not return any tags!"
          else
            match (sortBy (fun b a => version_compare a b) head).head? with
            | some v => .ok v
            | none => .error "empty sorted list"

/-- The grammar that C9 ascribes to the pkt-line parser, formalised
literally: a token of hex digits and '#', one or more spaces/tabs, a
remainder free of CR/LF, then one or more whitespace bytes. -/
def claimLineGrammar (input : List Nat) : Prop :=
  ∃ tok sp rem ws rest,
    input = tok ++ sp ++ rem ++ ws ++ rest ∧
    tok ≠ [] ∧ (∀ c ∈ tok, isTupleChar c = true) ∧
    sp ≠ [] ∧ (∀ c ∈ sp, isSpaceTabChar c = true) ∧
    (∀ c ∈ rem, notCrLf c = true) ∧
    ws ≠ [] ∧ (∀ c ∈ ws, isWsChar c = true)

/-- The amended grammar: as `claimLineGrammar`, but the trailing
whitespace run must begin with an actual line ending - a line feed, or
a carriage return immediately followed by a line feed. -/
def amendedLineGrammar (input : List Nat) : Prop :=
  ∃ tok sp rem ws rest,
    input = tok ++ sp ++ rem ++ ws ++ rest ∧
    tok ≠ [] ∧ (∀ c ∈ tok, isTupleChar c = true) ∧
    sp ≠ [] ∧ (∀ c ∈ sp, isSpaceTabChar c = true) ∧
    (∀ c ∈ rem, notCrLf c = true) ∧
    (∀ c ∈ ws, isWsChar c = true) ∧
    (ws.head? = some 10 ∨ (ws.head? = some 13 ∧ ws.tail.head? = some 10))

theorem takeWhile_eq_of_append (p : Nat → Bool) (a b : List Nat)
    (ha : ∀ x ∈ a, p x = true)
    (hb : ∀ c, b.head? = some c → p c = false) :
    (a ++ b).takeWhile p = a ∧ (a ++ b).dropWhile p = b := by
  induction a with
  | nil =>
    simp only [List.nil_append]
    cases b with
    | nil => simp
    | cons c cs =>
      have hc := hb c rfl
      rw [List.takeWhile_cons, List.dropWhile_cons]
      simp [hc]
  | cons x xs ih =>
    have hx : p x = true := ha x (List.mem_cons_self x xs)
    have ih' := ih fun y hy => ha y (List.mem_cons_of_mem x hy)
    simp only [List.cons_append]
    rw [List.takeWhile_cons, List.dropWhile_cons]
    simp [hx, ih'.1, ih'.2]

theorem dropWhile_append_of_all (p : Nat → Bool) (a b : List Nat)
    (ha : ∀ x ∈ a, p x = true) :
    (a ++ b).dropWhile p = b.dropWhile p := by
  induction a with
  | nil => simp
  | cons x xs ih =>
    have hx : p x = true := ha x (List.mem_cons_self x xs)
    simp only [List.cons_append]
    rw [List.dropWhile_cons]
    simp [hx, ih fun y hy => ha y (List.mem_cons_of_mem x hy)]

theorem dropWhile_append_stop (p : Nat → Bool) (a b : List Nat)
    (hb : ∀ c, b.head? = some c → p c = false) :
    (a ++ b).dropWhile p = a.dropWhile p ++ b := by
  induction a with
  | nil =>
    simp only [List.nil_append, List.dropWhile_nil]
    cases b with
    | nil => simp
    | cons c cs =>
      rw [List.dropWhile_cons]
      simp [hb c rfl]
  | cons x xs ih =>
    simp only [List.cons_append]
    rw [List.dropWhile_cons, List.dropWhile_cons]
    by_cases hx : p x
    · simp [hx, ih]
    · simp [hx]

theorem dropWhile_head_not (p : Nat → Bool) :
    ∀ (l : List Nat) (c : Nat) (r : List Nat),
      l.dropWhile p = c :: r → p c = false := by
  intro l
  induction l with
  | nil => intro c r h; exact List.noConfusion h
  | cons x xs ih =>
    intro c r h
    rw [List.dropWhile_cons] at h
    by_cases hx : p x
    · rw [if_pos hx] at h
      exact ih c r h
    · rw [if_neg hx] at h
      injection h with h1 _
      subst h1
      exact Bool.eq_false_iff.mpr hx

theorem takeWhile_ne_nil_of_head (p : Nat → Bool) (l : List Nat) (c : Nat)
    (hc : l.head? = some c) (h : p c = true) : l.takeWhile p ≠ [] := by
  cases l with
  | nil => exact Option.noConfusion hc
  | cons a as =>
    injection hc with h1
    subst h1
    rw [List.takeWhile_cons, if_pos h]
    simp

theorem takeWhile1_inv (p : Nat → Bool) (input t r : List Nat)
    (h : takeWhile1 p input = some (t, r)) :
    t = input.takeWhile p ∧ r = input.dropWhile p ∧ t ≠ [] := by
  unfold takeWhile1 at h
  cases ht : input.takeWhile p with
  | nil => rw [ht] at h; exact Option.noConfusion h
  | cons a as =>
    rw [ht] at h
    injection h with h1
    injection h1 with h2 h3
    subst h2
    subst h3
    simp [ht]

theorem takeWhile1_eq_some_of (p : Nat → Bool) (l : List Nat)
    (h : l.takeWhile p ≠ []) :
    takeWhile1 p l = some (l.takeWhile p, l.dropWhile p) := by
  unfold takeWhile1
  cases ht : l.takeWhile p with
  | nil => exact absurd ht h
  | cons a as =>
    simp only [ht]

theorem lineEndOk_iff (r : List Nat) :
    lineEndOk r = true ↔ (r.head? = some 13 → r.tail.head? = some 10) := by
  cases r with
  | nil => simp [lineEndOk]
  | cons c r2 =>
    by_cases hc : c = 13
    · subst hc
      cases r2 with
      | nil => simp [lineEndOk]
      | cons c2 r3 => simp [lineEndOk]
    · simp [lineEndOk, hc]

theorem till_line_ending_inv (input t r : List Nat)
    (h : till_line_ending input = some (t, r)) :
    t = input.takeWhile notCrLf ∧ r = input.dropWhile notCrLf ∧
      (r.head? = some 13 → r.tail.head? = some 10) := by
  unfold till_line_ending at h
  by_cases hok : lineEndOk (input.dropWhile notCrLf) = true
  · rw [if_pos hok] at h
    injection h with h1
    injection h1 with h2 h3
    subst h2
    subst h3
    exact ⟨rfl, rfl, (lineEndOk_iff _).mp hok⟩
  · rw [if_neg hok] at h
    exact Option.noConfusion h

theorem till_line_ending_eq_some (input : List Nat)
    (hcond : (input.dropWhile notCrLf).head? = some 13 →
      (input.dropWhile notCrLf).tail.head? = some 10) :
    till_line_ending input =
      some (input.takeWhile notCrLf, input.dropWhile notCrLf) := by
  unfold till_line_ending
  rw [if_pos ((lineEndOk_iff _).mpr hcond)]

theorem notCrLf_false_elim (c : Nat) (h : notCrLf c = false) :
    c = 10 ∨ c = 13 := by
  unfold notCrLf at h
  by_cases h10 : c = 10
  · exact Or.inl h10
  · by_cases h13 : c = 13
    · exact Or.inr h13
    · exfalso
      have b10 : (c == 10) = false := by
        simp [h10]
      have b13 : (c == 13) = false := by
        simp [h13]
      rw [b10, b13] at h
      exact Bool.noConfusion h

theorem spaceTab_not_tuple (c : Nat) (h : isSpaceTabChar c = true) :
    isTupleChar c = false := by
  unfold isSpaceTabChar at h
  rcases Bool.or_eq_true_iff.mp h with h' | h'
  · have : c = 32 := by simpa using h'
    subst this
    decide
  · have : c = 9 := by simpa using h'
    subst this
    decide

theorem crlf_not_spaceTab (c : Nat) (h : c = 10 ∨ c = 13) :
    isSpaceTabChar c = false := by
  rcases h with rfl | rfl <;> decide

theorem crlf_not_notCrLf (c : Nat) (h : c = 10 ∨ c = 13) :
    notCrLf c = false := by
  rcases h with rfl | rfl <;> decide

theorem crlf_isWs (c : Nat) (h : c = 10 ∨ c = 13) : isWsChar c = true := by
  rcases h with rfl | rfl <;> decide

/-- Forward characterization: a successful `single_line` run yields
exactly the amended-grammar decomposition of its input. -/
theorem single_line_inv (input : List Nat) (kv : List Nat × List Nat)
    (r2 : List Nat) (h : single_line input = some (kv, r2)) :
    ∃ tok sp rem ws,
      input = tok ++ sp ++ rem ++ ws ++ r2 ∧
      tok ≠ [] ∧ (∀ c ∈ tok, isTupleChar c = true) ∧
      sp ≠ [] ∧ (∀ c ∈ sp, isSpaceTabChar c = true) ∧
      (∀ c ∈ rem, notCrLf c = true) ∧
      (∀ c ∈ ws, isWsChar c = true) ∧ ws ≠ [] ∧
      (ws.head? = some 10 ∨ (ws.head? = some 13 ∧ ws.tail.head? = some 10)) ∧
      kv = (tok, rem) := by
  unfold single_line kv_pair at h
  simp only [Option.bind_eq_some, Option.map_eq_some'] at h
  obtain ⟨kv_r, ⟨tok_r1, hft, sp_r2, hsp, rem_r3, htle, hkveq⟩,
    ws_r2, hms, heq2⟩ := h
  obtain ⟨tok, r1⟩ := tok_r1
  obtain ⟨sp, r2a⟩ := sp_r2
  obtain ⟨rem, r3⟩ := rem_r3
  obtain ⟨ws, rest⟩ := ws_r2
  subst hkveq
  simp only [Prod.mk.injEq] at heq2
  obtain ⟨hkv_eq, hr2_eq⟩ := heq2
  subst hkv_eq
  subst hr2_eq
  simp only at hft hsp htle hms
  obtain ⟨htok_eq, hr1_eq, htok_ne⟩ := takeWhile1_inv isTupleChar input tok r1 hft
  obtain ⟨hsp_eq, hr2a_eq, hsp_ne⟩ := takeWhile1_inv isSpaceTabChar r1 sp r2a hsp
  obtain ⟨hrem_eq, hr3_eq, hcr⟩ := till_line_ending_inv r2a rem r3 htle
  obtain ⟨hws_eq, hrest_eq, hws_ne⟩ := takeWhile1_inv isWsChar r3 ws rest hms
  refine ⟨tok, sp, rem, ws, ?_, htok_ne, ?_, hsp_ne, ?_, ?_, ?_, hws_ne,
    ?_, rfl⟩
  · rw [hrest_eq, hws_eq, hr3_eq, hrem_eq, hr2a_eq, hsp_eq, hr1_eq, htok_eq]
    rw [List.append_assoc, List.append_assoc, List.append_assoc]
    rw [List.takeWhile_append_dropWhile, List.takeWhile_append_dropWhile,
      List.takeWhile_append_dropWhile, List.takeWhile_append_dropWhile]
  · intro c hc
    rw [htok_eq] at hc
    exact List.mem_takeWhile_imp hc
  · intro c hc
    rw [hsp_eq] at hc
    exact List.mem_takeWhile_imp hc
  · intro c hc
    rw [hrem_eq] at hc
    exact List.mem_takeWhile_imp hc
  · intro c hc
    rw [hws_eq] at hc
    exact List.mem_takeWhile_imp hc
  · cases hr3 : r3 with
    | nil =>
      exfalso
      rw [hr3] at hws_eq
      simp only [List.takeWhile_nil] at hws_eq
      exact hws_ne hws_eq
    | cons c r' =>
      have hcf : notCrLf c = false := by
        apply dropWhile_head_not notCrLf r2a c r'
        rw [← hr3, hr3_eq]
      rcases notCrLf_false_elim c hcf with rfl | rfl
      · left
        rw [hws_eq, hr3]
        rw [List.takeWhile_cons]
        norm_num [isWsChar]
      · right
        have h10 : r'.head? = some 10 := by
          have := hcr (by rw [hr3]; rfl)
          rw [hr3] at this
          exact this
        cases r' with
        | nil => exact Option.noConfusion h10
        | cons c2 r'' =>
          injection h10 with h11
          subst h11
          rw [hws_eq, hr3]
          rw [List.takeWhile_cons]
          norm_num [isWsChar]

/-- Backward construction: an amended-grammar decomposition makes
`single_line` succeed. -/
theorem single_line_of_grammar (input : List Nat)
    (h : amendedLineGrammar input) : (single_line input).isSome := by
  obtain ⟨tok, sp, rem, ws, rest, heq, htokne, htok, hspne, hsp, hrem,
    hws, hwshead⟩ := h
  have heq' : input = tok ++ (sp ++ (rem ++ (ws ++ rest))) := by
    rw [heq]
    simp [List.append_assoc]
  have hw0 : ∃ w0, ws.head? = some w0 ∧ (w0 = 10 ∨ w0 = 13) := by
    rcases hwshead with h10 | ⟨h13, _⟩
    · exact ⟨10, h10, Or.inl rfl⟩
    · exact ⟨13, h13, Or.inr rfl⟩
  obtain ⟨w0, hw0h, hw0v⟩ := hw0
  have hwsne : ws ≠ [] := by
    intro hnil
    rw [hnil] at hw0h
    exact Option.noConfusion hw0h
  have hwr_head : (ws ++ rest).head? = some w0 := by
    cases ws with
    | nil => exact absurd rfl hwsne
    | cons a as => exact hw0h
  -- step 1: first_tuple
  have hb1 : ∀ c, (sp ++ (rem ++ (ws ++ rest))).head? = some c →
      isTupleChar c = false := by
    intro c hc
    cases sp with
    | nil => exact absurd rfl hspne
    | cons s0 sp' =>
      simp only [List.cons_append, List.head?_cons, Option.some.injEq] at hc
      subst hc
      exact spaceTab_not_tuple s0 (hsp s0 (List.mem_cons_self s0 sp'))
  obtain ⟨hT1, hD1⟩ := takeWhile_eq_of_append isTupleChar tok
    (sp ++ (rem ++ (ws ++ rest))) htok hb1
  have hft : first_tuple input = some (tok, sp ++ (rem ++ (ws ++ rest))) := by
    unfold first_tuple
    rw [heq']
    rw [takeWhile1_eq_some_of isTupleChar _ (by rw [hT1]; exact htokne)]
    rw [hT1, hD1]
  -- step 2: space1
  have hs0 : ∃ s0 sp', sp = s0 :: sp' := by
    cases sp with
    | nil => exact absurd rfl hspne
    | cons s0 sp' => exact ⟨s0, sp', rfl⟩
  obtain ⟨s0, sp', hsp_struct⟩ := hs0
  have hsp_head : (sp ++ (rem ++ (ws ++ rest))).head? = some s0 := by
    rw [hsp_struct]
    rfl
  have hD2 : (sp ++ (rem ++ (ws ++ rest))).dropWhile isSpaceTabChar =
      rem.dropWhile isSpaceTabChar ++ (ws ++ rest) := by
    rw [dropWhile_append_of_all isSpaceTabChar sp _ hsp]
    rw [dropWhile_append_stop isSpaceTabChar rem (ws ++ rest)]
    intro c hc
    rw [hwr_head] at hc
    injection hc with hc1
    rw [← hc1]
    exact crlf_not_spaceTab w0 hw0v
  have hsp1 : space1 (sp ++ (rem ++ (ws ++ rest))) =
      some ((sp ++ (rem ++ (ws ++ rest))).takeWhile isSpaceTabChar,
        rem.dropWhile isSpaceTabChar ++ (ws ++ rest)) := by
    unfold space1
    rw [takeWhile1_eq_some_of isSpaceTabChar _
      (takeWhile_ne_nil_of_head isSpaceTabChar _ s0 hsp_head
        (hsp s0 (by rw [hsp_struct]; exact List.mem_cons_self s0 sp')))]
    rw [hD2]
  -- step 3: till_line_ending
  have hrem' : ∀ c ∈ rem.dropWhile isSpaceTabChar, notCrLf c = true := by
    intro c hc
    exact hrem c ((List.dropWhile_sublist isSpaceTabChar).mem hc)
  have hb3 : ∀ c, (ws ++ rest).head? = some c → notCrLf c = false := by
    intro c hc
    rw [hwr_head] at hc
    injection hc with hc1
    rw [← hc1]
    exact crlf_not_notCrLf w0 hw0v
  obtain ⟨hT3, hD3⟩ := takeWhile_eq_of_append notCrLf
    (rem.dropWhile isSpaceTabChar) (ws ++ rest) hrem' hb3
  have htle : till_line_ending (rem.dropWhile isSpaceTabChar ++ (ws ++ rest)) =
      some (rem.dropWhile isSpaceTabChar, ws ++ rest) := by
    rw [till_line_ending_eq_some _ ?_]
    · rw [hT3, hD3]
    · rw [hD3]
      intro h13
      rw [hwr_head] at h13
      injection h13 with h14
      rcases hwshead with h10 | ⟨h13h, h10t⟩
      · rw [hw0h] at h10
        injection h10 with h15
        omega
      · cases ws with
        | nil => exact absurd rfl hwsne
        | cons a as =>
          cases as with
          | nil =>
            injection h10t
          | cons b bs =>
            injection h10t with h16
            subst h16
            rfl
  -- step 4: multispace1
  have hm4 : multispace1 (ws ++ rest) =
      some ((ws ++ rest).takeWhile isWsChar, (ws ++ rest).dropWhile isWsChar) := by
    unfold multispace1
    exact takeWhile1_eq_some_of isWsChar _
      (takeWhile_ne_nil_of_head isWsChar _ w0 hwr_head (crlf_isWs w0 hw0v))
  -- assemble
  unfold single_line kv_pair
  rw [hft]
  simp [hsp1, htle, hm4]

/-- A successful `single_line` run consumes at least one byte. -/
theorem single_line_consumes (input : List Nat) (kv : List Nat × List Nat)
    (r2 : List Nat) (h : single_line input = some (kv, r2)) :
    r2.length < input.length := by
  obtain ⟨tok, sp, rem, ws, heq, htokne, -, hspne, -, -, -, hwsne, -, -⟩ :=
    single_line_inv input kv r2 h
  rw [heq]
  simp only [List.length_append]
  have h1 : 0 < tok.length := List.length_pos.mpr htokne
  omega

theorem repeatAux_isSome (fuel : Nat) :
    ∀ (acc : List (List Nat × List Nat)) (input : List Nat),
      input.length < fuel → (repeatAux single_line fuel acc input).isSome := by
  induction fuel with
  | zero => intro acc input h; omega
  | succ fuel ih =>
    intro acc input h
    unfold repeatAux
    cases hs : single_line input with
    | none => rfl
    | some ar =>
      obtain ⟨a, rest⟩ := ar
      have hlt := single_line_consumes input a rest hs
      show (if rest.length < input.length then
          repeatAux single_line fuel (a :: acc) rest else none).isSome = true
      rw [if_pos hlt]
      exact ih (a :: acc) rest (by omega)

theorem parse_manifest_isSome_iff (input : List Nat) :
    (parse_git_manifest input).isSome = (single_line input).isSome := by
  unfold parse_git_manifest repeat1
  cases hs : single_line input with
  | none => rfl
  | some ar =>
    obtain ⟨a, rest⟩ := ar
    have hlt := single_line_consumes input a rest hs
    show (if rest.length < input.length then
        repeatAux single_line (rest.length + 1) [a] rest else none).isSome =
      (some (a, rest)).isSome
    rw [if_pos hlt]
    rw [repeatAux_isSome (rest.length + 1) [a] rest (by omega)]
    rfl

theorem mem_of_head? {l : List α} {v : α} (h : l.head? = some v) : v ∈ l := by
  cases l with
  | nil => exact Option.noConfusion h
  | cons a as =>
    injection h with h1
    rw [← h1]
    exact List.mem_cons_self a as

theorem mem_of_getLast? {l : List α} {v : α} (h : l.getLast? = some v) :
    v ∈ l := by
  cases l with
  | nil => exact Option.noConfusion h
  | cons a as =>
    have hne : a :: as ≠ [] := by simp
    rw [List.getLast?_eq_getLast _ hne] at h
    injection h with h1
    rw [← h1]
    exact List.getLast_mem hne

/-- C9 counterexample: the input b"01234abc heads " (trailing space, no
newline) satisfies the claim's grammar as literally stated, yet the
parser rejects it: till_line_ending absorbs the trailing space and the
mandatory multispace1 then finds end of input. -/
theorem c9_grammar_counterexample :
    claimLineGrammar (bytes "01234abc heads ") ∧
    parse_git_manifest (bytes "01234abc heads ") = none := by
  constructor
  · refine ⟨bytes "01234abc", [32], bytes "heads", [32], [],
      ?_, ?_, ?_, ?_, ?_, ?_, ?_, ?_⟩ <;> decide
  · decide

/-- C9 (amended): the parser never decodes the 4-hex length prefix: it
succeeds exactly when the input begins with a line of the form
token(hex or '#', non-empty), one or more spaces/tabs, a CR/LF-free
remainder, then a whitespace run that begins with LF or CR-LF; stated
lengths and '#'-hex mixtures are never checked. -/
theorem c9_amended_no_length_check (input : List Nat) :
    (parse_git_manifest input).isSome ↔ amendedLineGrammar input := by
  rw [parse_manifest_isSome_iff]
  constructor
  · intro h
    cases hs : single_line input with
    | none => rw [hs] at h; exact Bool.noConfusion h
    | some kvr =>
      obtain ⟨kv, r2⟩ := kvr
      obtain ⟨tok, sp, rem, ws, heq, h1, h2, h3, h4, h5, h6, h7, h8, h9⟩ :=
        single_line_inv input kv r2 hs
      exact ⟨tok, sp, rem, ws, r2, heq, h1, h2, h3, h4, h5, h6, h8⟩
  · intro h
    exact single_line_of_grammar input h

/-- C3: a peeled-tag payload (suffix ^\x7b\x7d) never classifies to any
reference; emitted Tags come exactly from payloads prefixed refs/tags/
with UTF-8-decodable names, emitted Branches from payloads prefixed
refs/heads/ with UTF-8-decodable name and revision; non-UTF-8 names are
silently dropped; and every emitted reference originates from a decoded
manifest pair. -/
theorem c3_peeled_and_classification :
    (∀ p : List Nat × List Nat, peeledSuffix.isSuffixOf p.2 = true →
      classifyRef p = none) ∧
    (∀ (p : List Nat × List Nat) (n : String),
      classifyRef p = some (GitRefs.Tag n) →
      (bytes "refs/tags/").isPrefixOf p.2 = true ∧
      utf8String (p.2.drop 10) = some n) ∧
    (∀ (p : List Nat × List Nat) (n rev : String),
      classifyRef p = some (GitRefs.Heads n rev) →
      (bytes "refs/heads/").isPrefixOf p.2 = true ∧
      utf8String (p.2.drop 11) = some n ∧ utf8String p.1 = some rev) ∧
    (∀ p : List Nat × List Nat, (bytes "refs/tags/").isPrefixOf p.2 = true →
      utf8String (p.2.drop 10) = none → classifyRef p = none) ∧
    (∀ (input : List Nat) (out : List GitRefs) (r : GitRefs),
      collect_git_refs input = some out → r ∈ out →
      ∃ tuples rest p, parse_git_manifest input = some (tuples, rest) ∧
        p ∈ tuples ∧ classifyRef p = some r) := by
  refine ⟨?_, ?_, ?_, ?_, ?_⟩
  · intro p h
    unfold classifyRef
    rw [if_pos h]
  · intro p n h
    unfold classifyRef at h
    by_cases hA : peeledSuffix.isSuffixOf p.2 = true
    · rw [if_pos hA] at h
      exact Option.noConfusion h
    · rw [if_neg hA] at h
      by_cases hB : (bytes "refs/tags/").isPrefixOf p.2 = true
      · rw [if_pos hB] at h
        cases hu : utf8String (p.2.drop 10) with
        | none =>
          rw [hu] at h
          exact Option.noConfusion h
        | some name =>
          rw [hu] at h
          have h1 : GitRefs.Tag name = GitRefs.Tag n := Option.some.inj h
          have h2 : name = n := by injection h1
          refine ⟨hB, ?_⟩
          rw [h2]
      · rw [if_neg hB] at h
        by_cases hC : (bytes "refs/heads/").isPrefixOf p.2 = true
        · rw [if_pos hC] at h
          cases hu1 : utf8String (p.2.drop 11) with
          | none =>
            rw [hu1] at h
            exact Option.noConfusion h
          | some name =>
            cases hu2 : utf8String p.1 with
            | none =>
              rw [hu1, hu2] at h
              exact Option.noConfusion h
            | some rev =>
              rw [hu1, hu2] at h
              have h1 : GitRefs.Heads name rev = GitRefs.Tag n :=
                Option.some.inj h
              exact GitRefs.noConfusion h1
        · rw [if_neg hC] at h
          exact Option.noConfusion h
  · intro p n rev h
    unfold classifyRef at h
    by_cases hA : peeledSuffix.isSuffixOf p.2 = true
    · rw [if_pos hA] at h
      exact Option.noConfusion h
    · rw [if_neg hA] at h
      by_cases hB : (bytes "refs/tags/").isPrefixOf p.2 = true
      · rw [if_pos hB] at h
        cases hu : utf8String (p.2.drop 10) with
        | none =>
          rw [hu] at h
          exact Option.noConfusion h
        | some name =>
          rw [hu] at h
          have h1 : GitRefs.Tag name = GitRefs.Heads n rev :=
            Option.some.inj h
          exact GitRefs.noConfusion h1
      · rw [if_neg hB] at h
        by_cases hC : (bytes "refs/heads/").isPrefixOf p.2 = true
        · rw [if_pos hC] at h
          cases hu1 : utf8String (p.2.drop 11) with
          | none =>
            rw [hu1] at h
            exact Option.noConfusion h
          | some name =>
            cases hu2 : utf8String p.1 with
            | none =>
              rw [hu1, hu2] at h
              exact Option.noConfusion h
            | some rev' =>
              rw [hu1, hu2] at h
              have h1 : GitRefs.Heads name rev' = GitRefs.Heads n rev :=
                Option.some.inj h
              have h2 : name = n := by injection h1
              have h3 : rev' = rev := by injection h1
              refine ⟨hC, ?_, ?_⟩
              · rw [h2]
              · rw [h3]
        · rw [if_neg hC] at h
          exact Option.noConfusion h
  · intro p hB hu
    unfold classifyRef
    by_cases hA : peeledSuffix.isSuffixOf p.2 = true
    · rw [if_pos hA]
    · rw [if_neg hA, if_pos hB, hu]
  · intro input out r hcol hr
    unfold collect_git_refs at hcol
    rw [Option.map_eq_some'] at hcol
    obtain ⟨⟨tuples, rest⟩, hp, hout⟩ := hcol
    rw [← hout] at hr
    simp only at hr
    rw [List.mem_filterMap] at hr
    obtain ⟨p, hmem, hcl⟩ := hr
    exact ⟨tuples, rest, p, hp, hmem, hcl⟩

/-- Witness for C3 at a concrete peeled-tag pair: the classifier drops
it. -/
theorem c3_peeled_and_classification_witness :
    classifyRef (bytes "01234abc", bytes "refs/tags/v1.0" ++ peeledSuffix) =
      none :=
  c3_peeled_and_classification.1
    (bytes "01234abc", bytes "refs/tags/v1.0" ++ peeledSuffix) (by decide)

/-- C10: the boolean configuration keys are recognized by exact string
equality with "true": Anitya stable_only defaults to true when absent,
GitHub and GitLab sort_version default to false when absent; any
present value other than exactly "true" counts as false. -/
theorem c10_boolean_flags :
    (∀ (cfg : Config) (c : AnityaChecker), AnityaChecker.new cfg = .ok c →
      (c.stable_only = true ↔
        (cfg "stable_only" = none ∨ cfg "stable_only" = some "true"))) ∧
    (∀ (cfg : Config) (c : GitHubChecker), GitHubChecker.new cfg = .ok c →
      (c.sort_version = true ↔ cfg "sort_version" = some "true")) ∧
    (∀ (cfg : Config) (c : GitLabChecker), GitLabChecker.new cfg = .ok c →
      (c.sort_version = true ↔ cfg "sort_version" = some "true")) := by
  refine ⟨?_, ?_, ?_⟩
  · intro cfg c h
    unfold AnityaChecker.new at h
    cases hid : cfg "id" with
    | none => rw [hid] at h; exact Except.noConfusion h
    | some s =>
      simp only [hid] at h
      cases hn : parseNat? s with
      | none =>
        simp only [hn] at h
        exact Except.noConfusion h
      | some id =>
        simp only [hn, Except.ok.injEq] at h
        subst h
        cases hso : cfg "stable_only" with
        | none => simp [hso]
        | some v => simp [hso]
  · intro cfg c h
    unfold GitHubChecker.new at h
    cases hre : cfg "repo" with
    | none => rw [hre] at h; exact Except.noConfusion h
    | some repo =>
      simp only [hre, Except.ok.injEq] at h
      subst h
      cases hso : cfg "sort_version" with
      | none => simp [hso]
      | some v => simp [hso]
  · intro cfg c h
    unfold GitLabChecker.new at h
    cases hre : cfg "repo" with
    | none => rw [hre] at h; exact Except.noConfusion h
    | some repo =>
      simp only [hre, Except.ok.injEq] at h
      subst h
      cases hso : cfg "sort_version" with
      | none => simp [hso]
      | some v => simp [hso]

/-- A concrete configuration exercising the boolean keys with values
that are not the exact string "true". -/
def cfgFlagsExample : Config := fun k =>
  if k = "id" then some "1832"
  else if k = "repo" then some "AOSC-Dev/ciel-rs"
  else if k = "stable_only" then some "True"
  else if k = "sort_version" then some "1"
  else none

/-- Witness for C10: with stable_only="True" and sort_version="1" the
constructed flags are false (not the exact string "true"). -/
theorem c10_boolean_flags_witness :
    ((⟨1832, false⟩ : AnityaChecker).stable_only = true ↔
      (cfgFlagsExample "stable_only" = none ∨
        cfgFlagsExample "stable_only" = some "true")) ∧
    ((⟨"AOSC-Dev/ciel-rs", none, false, none⟩ : GitHubChecker).sort_version =
        true ↔ cfgFlagsExample "sort_version" = some "true") :=
  ⟨c10_boolean_flags.1 cfgFlagsExample ⟨1832, false⟩ (by decide),
   c10_boolean_flags.2.1 cfgFlagsExample ⟨"AOSC-Dev/ciel-rs", none, false, none⟩
     (by decide)⟩

/-- C2 counterexample: the GitWeb checker never consults the HTTP
status: with a 404 response whose body still yields one candidate, the
check succeeds instead of returning an error. -/
theorem c2_gitweb_ignores_status_counterexample :
    GitWebChecker.check ⟨"http://example.org", none⟩ compileExample
      (fun _ => ["1.0"]) ⟨404, some 10, "irrelevant"⟩ = .ok "1.0" := by rfl

/-- C2 (amended): for the Anitya, GitHub (both request paths), Git and
HTML backends a 4xx or 5xx response status makes check return an error
before decoding the body; GitLab and GitWeb never consult the status
code (see the counterexample). -/
theorem c2_amended_status_handling (s : Nat) (hs : 400 ≤ s)
    (hs2 : s ≤ 599) :
    (∀ (c : AnityaChecker) (parse : String → Option AnityaData)
      (cl : Option Nat) (body : String), ∃ e,
        c.check parse ⟨s, cl, body⟩ = .error e) ∧
    (∀ (c : GitHubChecker) (token : Option String) (compile : RegexCompile)
      (pt ps : String → Option (List String)) (cl : Option Nat)
      (body : String), ∃ e,
        c.check token compile pt ps ⟨s, cl, body⟩ = .error e) ∧
    (∀ (c : GitChecker) (compile : RegexCompile) (cl : Option Nat)
      (body : List Nat), ∃ e, c.check compile ⟨s, cl, body⟩ = .error e) ∧
    (∀ (c : HTMLChecker) (compile : RegexCompile) (cl : Option Nat)
      (body : String), ∃ e, c.check compile ⟨s, cl, body⟩ = .error e) := by
  have he : errorForStatus s = true := by
    unfold errorForStatus
    simp only [Bool.and_eq_true, decide_eq_true_eq]
    exact ⟨hs, hs2⟩
  refine ⟨?_, ?_, ?_, ?_⟩
  · intro c parse cl body
    unfold AnityaChecker.check
    simp [he]
  · intro c token compile pt ps cl body
    unfold GitHubChecker.check GitHubChecker.check_rev GitHubChecker.check_tags
    cases hb : c.branch <;> cases hsl : (splitSlug c.repo).2 <;>
      cases ht : token <;> simp [he]
  · intro c compile cl body
    unfold GitChecker.check
    simp [he]
  · intro c compile cl body
    unfold HTMLChecker.check
    by_cases hbt : bodyTooLarge ⟨s, cl, body⟩ = true
    · simp [hbt]
    · simp [hbt, he]

/-- Witness for C2 (amended) at status 404: the Anitya and Git checks
error out. -/
theorem c2_amended_status_handling_witness :
    (∃ e, AnityaChecker.check ⟨1, true⟩ (fun _ => none) ⟨404, none, ""⟩ =
      .error e) ∧
    (∃ e, GitChecker.check ⟨"u", none, none⟩ compileExample
      ⟨404, none, []⟩ = .error e) :=
  ⟨(c2_amended_status_handling 404 (by decide) (by decide)).1
      ⟨1, true⟩ (fun _ => none) none "",
   (c2_amended_status_handling 404 (by decide) (by decide)).2.2.1
      ⟨"u", none, none⟩ compileExample none []⟩

/-- C6: with a configured branch, the Git check returns verbatim the
revision of the first decoded Heads entry whose name equals the branch
exactly (Tag entries never contribute), and fails when no such entry
exists; without a branch it filters the Tag names (optional pattern),
fails on an empty candidate list, and otherwise returns a candidate
that the version comparator ranks as a maximum (descending sort, first
element). -/
theorem c6_git_selection (c : GitChecker) (compile : RegexCompile)
    (resp : HttpResponse (List Nat)) (refs : List GitRefs)
    (hs : errorForStatus resp.status = false)
    (hrefs : collect_git_refs resp.body = some refs) :
    (∀ b, c.branch = some b →
      ((∃ rev rest, branchRevs refs b = rev :: rest ∧
          c.check compile resp = .ok rev) ∨
        (branchRevs refs b = [] ∧ ∃ e, c.check compile resp = .error e))) ∧
    (c.branch = none →
      ∀ l, (match c.pattern with
            | some p => extract_versions compile p (tagNames refs)
            | none => .ok (tagNames refs)) = .ok l →
        ((l = [] ∧ ∃ e, c.check compile resp = .error e) ∨
         (l ≠ [] ∧ ∃ m, c.check compile resp = .ok m ∧ m ∈ l ∧
            ∀ x ∈ l, version_compare x m ≠ .gt))) := by
  constructor
  · intro b hb
    cases hbr : branchRevs refs b with
    | nil =>
      right
      refine ⟨rfl, "Git branch did not return any rev!", ?_⟩
      unfold GitChecker.check
      simp [hs, hrefs, hb, hbr]
    | cons rev rest =>
      left
      refine ⟨rev, rest, rfl, ?_⟩
      unfold GitChecker.check
      simp [hs, hrefs, hb, hbr]
  · intro hbn l hl
    by_cases hemp : l = []
    · left
      refine ⟨hemp, "Git did not return any tags!", ?_⟩
      unfold GitChecker.check
      subst hemp
      simp [hs, hrefs, hbn, hl]
    · right
      have hswap : ∀ x y : String,
          (fun b a => version_compare a b) x y =
            ((fun b a => version_compare a b) y x).swap :=
        fun x y => version_compare_swap y x
      have htrans : ∀ x y z : String,
          (fun b a => version_compare a b) x y ≠ .gt →
          (fun b a => version_compare a b) y z ≠ .gt →
          (fun b a => version_compare a b) x z ≠ .gt :=
        fun x y z h1 h2 => version_compare_le_trans h2 h1
      obtain ⟨m, hm_hd, hm_mem, hm_max⟩ :=
        sortBy_head_min (fun b a => version_compare a b) hswap htrans l hemp
      refine ⟨hemp, m, ?_, hm_mem, fun x hx => hm_max x hx⟩
      unfold GitChecker.check
      simp [hs, hrefs, hbn, hl, hemp, hm_hd]

/-- Witness for C6: branch=master against a manifest advertising only
refs/heads/master returns the hex revision verbatim. -/
theorem c6_git_selection_witness :
    GitChecker.check ⟨"u", some "master", none⟩ compileExample
      ⟨200, none, bytes "01234abc refs/heads/master\n"⟩ = .ok "01234abc" := by
  have h := (c6_git_selection ⟨"u", some "master", none⟩ compileExample
    ⟨200, none, bytes "01234abc refs/heads/master\n"⟩
    [GitRefs.Heads "master" "01234abc"] (by decide) (by decide)).1 "master" rfl
  have h2 : branchRevs [GitRefs.Heads "master" "01234abc"] "master" =
      ["01234abc"] := by decide
  rcases h with ⟨rev, rest, he, hok⟩ | ⟨he, -, -⟩
  · rw [h2] at he
    injection he with h3 _
    rw [h3]
    exact hok
  · rw [h2] at he
    exact List.noConfusion he

/-- C7: for the GitWeb and HTML backends, a single surviving candidate
is returned unchanged, and with more than one candidate the check
returns a candidate that the version comparator ranks as a maximum of
the candidate list. -/
theorem c7_single_or_max :
    (∀ (c : GitWebChecker) (compile : RegexCompile)
      (sel : String → List String) (resp : HttpResponse String)
      (l : List String),
      bodyTooLarge resp = false →
      (match c.pattern with
       | some p => extract_versions compile p (sel resp.body)
       | none => .ok (sel resp.body)) = .ok l →
      (∀ v, l = [v] → c.check compile sel resp = .ok v) ∧
      (1 < l.length → ∃ m, c.check compile sel resp = .ok m ∧ m ∈ l ∧
        ∀ x ∈ l, version_compare x m ≠ .gt)) ∧
    (∀ (c : HTMLChecker) (compile : RegexCompile) (resp : HttpResponse String)
      (regex : RegexModel) (l : List String),
      bodyTooLarge resp = false → errorForStatus resp.status = false →
      compile c.pattern = .ok regex →
      collectGroup1 (regex.capturesAll resp.body) = some l →
      (∀ v, l = [v] → c.check compile resp = .ok v) ∧
      (1 < l.length → ∃ m, c.check compile resp = .ok m ∧ m ∈ l ∧
        ∀ x ∈ l, version_compare x m ≠ .gt)) := by
  have htrans : ∀ x y z : String, version_compare x y ≠ .gt →
      version_compare y z ≠ .gt → version_compare x z ≠ .gt :=
    fun _ _ _ h1 h2 => version_compare_le_trans h1 h2
  constructor
  · intro c compile sel resp l hbt hl
    constructor
    · intro v hv
      subst hv
      unfold GitWebChecker.check
      simp [hbt, hl]
    · intro hlen
      have hemp : l ≠ [] := by
        intro h
        rw [h] at hlen
        simp at hlen
      obtain ⟨m, hm_last, hm_mem, hm_max⟩ :=
        sortBy_getLast_max version_compare version_compare_swap htrans l hemp
      refine ⟨m, ?_, hm_mem, hm_max⟩
      unfold GitWebChecker.check
      cases l with
      | nil => simp at hlen
      | cons v1 tl =>
        cases tl with
        | nil => simp at hlen
        | cons v2 tl2 => simp [hbt, hl, hm_last]
  · intro c compile resp regex l hbt hst hre hl
    constructor
    · intro v hv
      subst hv
      unfold HTMLChecker.check
      simp [hbt, hst, hre, hl]
    · intro hlen
      have hemp : l ≠ [] := by
        intro h
        rw [h] at hlen
        simp at hlen
      obtain ⟨m, hm_last, hm_mem, hm_max⟩ :=
        sortBy_getLast_max version_compare version_compare_swap htrans l hemp
      refine ⟨m, ?_, hm_mem, hm_max⟩
      unfold HTMLChecker.check
      cases l with
      | nil => simp at hlen
      | cons v1 tl =>
        cases tl with
        | nil => simp at hlen
        | cons v2 tl2 => simp [hbt, hst, hre, hl, hm_last]

/-- Witness for C7: a single GitWeb candidate is returned unchanged. -/
theorem c7_single_or_max_witness :
    GitWebChecker.check ⟨"u", none⟩ compileExample (fun _ => ["9.0"])
      ⟨200, none, ""⟩ = .ok "9.0" :=
  (c7_single_or_max.1 ⟨"u", none⟩ compileExample (fun _ => ["9.0"])
    ⟨200, none, ""⟩ ["9.0"] (by decide) (by rfl)).1 "9.0" rfl

/-- C8 counterexample: the Anitya checker returns whatever string the
upstream lists first, including the empty string - success does not
guarantee a non-empty version string. -/
theorem c8_empty_string_counterexample :
    AnityaChecker.check ⟨1, true⟩ (fun _ => some ⟨1, [""], []⟩)
      ⟨200, none, ""⟩ = .ok "" := by rfl

/-- C8 (amended): whenever a backend check returns successfully, the
returned string is drawn from the backend's decoded candidates (so the
candidate list was non-empty), but the string itself may be empty when
the upstream supplies an empty candidate. -/
theorem c8_amended_result_membership :
    (∀ (c : AnityaChecker) (parse : String → Option AnityaData)
      (resp : HttpResponse String) (v : String),
      c.check parse resp = .ok v →
      ∃ d, parse resp.body = some d ∧
        v ∈ (if c.stable_only then d.stable_versions else d.versions)) ∧
    (∀ (c : GitHubChecker) (token : Option String) (compile : RegexCompile)
      (pt ps : String → Option (List String)) (resp : HttpResponse String)
      (v : String),
      c.check token compile pt ps resp = .ok v →
      (∃ shas, ps resp.body = some shas ∧ v ∈ shas) ∨
      (∃ nodes l, pt resp.body = some nodes ∧
        (match c.pattern with
         | some p => extract_versions compile p nodes
         | none => .ok nodes) = .ok l ∧ l ≠ [] ∧ v ∈ l)) ∧
    (∀ (c : GitLabChecker) (compile : RegexCompile)
      (pt : String → Option (List String)) (resp : HttpResponse String)
      (v : String),
      c.check compile pt resp = .ok v →
      ∃ tags, pt resp.body = some tags ∧ v ∈ tags) ∧
    (∀ (c : GitWebChecker) (compile : RegexCompile)
      (sel : String → List String) (resp : HttpResponse String) (v : String),
      c.check compile sel resp = .ok v →
      ∃ l, (match c.pattern with
            | some p => extract_versions compile p (sel resp.body)
            | none => .ok (sel resp.body)) = .ok l ∧ l ≠ [] ∧ v ∈ l) ∧
    (∀ (c : HTMLChecker) (compile : RegexCompile) (resp : HttpResponse String)
      (v : String),
      c.check compile resp = .ok v →
      ∃ regex l, compile c.pattern = .ok regex ∧
        collectGroup1 (regex.capturesAll resp.body) = some l ∧
        l ≠ [] ∧ v ∈ l) ∧
    (∀ (c : GitChecker) (compile : RegexCompile)
      (resp : HttpResponse (List Nat)) (v : String),
      c.check compile resp = .ok v →
      ∃ refs, collect_git_refs resp.body = some refs ∧
        ((∃ b, c.branch = some b ∧ v ∈ branchRevs refs b) ∨
         (c.branch = none ∧ ∃ l,
           (match c.pattern with
            | some p => extract_versions compile p (tagNames refs)
            | none => .ok (tagNames refs)) = .ok l ∧ l ≠ [] ∧ v ∈ l))) := by
  refine ⟨?_, ?_, ?_, ?_, ?_, ?_⟩
  -- Anitya
  · intro c parse resp v h
    unfold AnityaChecker.check at h
    by_cases hst : errorForStatus resp.status = true
    · rw [if_pos hst] at h
      exact Except.noConfusion h
    · rw [if_neg hst] at h
      cases hp : parse resp.body with
      | none =>
        simp only [hp] at h
        exact Except.noConfusion h
      | some d =>
        simp only [hp] at h
        by_cases hid : d.id ≠ c.id
        · rw [if_pos hid] at h
          exact Except.noConfusion h
        · rw [if_neg hid] at h
          cases hv : (if c.stable_only then d.stable_versions
              else d.versions) with
          | nil =>
            simp only [hv] at h
            exact Except.noConfusion h
          | cons v0 vs =>
            simp only [hv] at h
            have h1 : v0 = v := Except.ok.inj h
            refine ⟨d, rfl, ?_⟩
            rw [hv, ← h1]
            exact List.mem_cons_self v0 vs
  -- GitHub
  · intro c token compile pt ps resp v h
    unfold GitHubChecker.check at h
    cases hb : c.branch with
    | some b =>
      simp only [hb] at h
      left
      unfold GitHubChecker.check_rev at h
      cases hsl : (splitSlug c.repo).2 with
      | none =>
        simp only [hsl] at h
        exact Except.noConfusion h
      | some nm =>
        simp only [hsl] at h
        cases ht : token with
        | none =>
          simp only [ht] at h
          exact Except.noConfusion h
        | some tk =>
          simp only [ht] at h
          by_cases hst : errorForStatus resp.status = true
          · rw [if_pos hst] at h
            exact Except.noConfusion h
          · rw [if_neg hst] at h
            cases hps : ps resp.body with
            | none =>
              simp only [hps] at h
              exact Except.noConfusion h
            | some shas =>
              simp only [hps] at h
              cases hh : shas.head? with
              | none =>
                simp only [hh] at h
                exact Except.noConfusion h
              | some sha =>
                simp only [hh] at h
                have h1 : sha = v := Except.ok.inj h
                exact ⟨shas, rfl, h1 ▸ mem_of_head? hh⟩
    | none =>
      simp only [hb] at h
      right
      unfold GitHubChecker.check_tags at h
      cases hsl : (splitSlug c.repo).2 with
      | none =>
        simp only [hsl] at h
        exact Except.noConfusion h
      | some nm =>
        simp only [hsl] at h
        cases ht : token with
        | none =>
          simp only [ht] at h
          exact Except.noConfusion h
        | some tk =>
          simp only [ht] at h
          by_cases hst : errorForStatus resp.status = true
          · rw [if_pos hst] at h
            exact Except.noConfusion h
          · rw [if_neg hst] at h
            cases hpt : pt resp.body with
            | none =>
              simp only [hpt] at h
              exact Except.noConfusion h
            | some nodes =>
              simp only [hpt] at h
              cases hex : (match c.pattern with
                  | some p => extract_versions compile p nodes
                  | none => .ok nodes) with
              | error e =>
                simp only [hex] at h
                exact Except.noConfusion h
              | ok payload =>
                simp only [hex] at h
                by_cases hpe : payload.isEmpty = true
                · rw [if_pos hpe] at h
                  exact Except.noConfusion h
                · rw [if_neg hpe] at h
                  have hne : payload ≠ [] := by
                    intro hpnil
                    rw [hpnil] at hpe
                    exact hpe rfl
                  cases hh : (if c.sort_version then
                      sortBy (fun b a => version_compare a b) payload
                    else payload).head? with
                  | none =>
                    simp only [hh] at h
                    exact Except.noConfusion h
                  | some v' =>
                    simp only [hh] at h
                    have h1 : v' = v := Except.ok.inj h
                    have hm : v' ∈ payload := by
                      by_cases hsv : c.sort_version = true
                      · rw [if_pos hsv] at hh
                        exact (sortBy_mem _ _ _).mp (mem_of_head? hh)
                      · rw [if_neg hsv] at hh
                        exact mem_of_head? hh
                    exact ⟨nodes, payload, rfl, hex, hne, h1 ▸ hm⟩
  -- GitLab
  · intro c compile pt resp v h
    unfold GitLabChecker.check at h
    cases hpt : pt resp.body with
    | none =>
      simp only [hpt] at h
      exact Except.noConfusion h
    | some tags =>
      simp only [hpt] at h
      cases hfl : ((match c.pattern with
          | some p =>
            match compile p with
            | .error e => .error e
            | .ok regex => .ok (tags.filter fun x => regex.isMatch x)
          | none => .ok tags) : Except String (List String)) with
      | error e =>
        simp only [hfl] at h
        exact Except.noConfusion h
      | ok payload =>
        simp only [hfl] at h
        by_cases hlen : payload.length < 1
        · rw [if_pos hlen] at h
          exact Except.noConfusion h
        · rw [if_neg hlen] at h
          cases hh : (if c.sort_version then
              sortBy (fun b a => version_compare a b) payload
            else payload).head? with
          | none =>
            simp only [hh] at h
            exact Except.noConfusion h
          | some v' =>
            simp only [hh] at h
            have h1 : v' = v := Except.ok.inj h
            have hm : v' ∈ payload := by
              by_cases hsv : c.sort_version = true
              · rw [if_pos hsv] at hh
                exact (sortBy_mem _ _ _).mp (mem_of_head? hh)
              · rw [if_neg hsv] at hh
                exact mem_of_head? hh
            have hmt : v' ∈ tags := by
              cases hpat : c.pattern with
              | none =>
                simp only [hpat] at hfl
                rw [Except.ok.inj hfl]
                exact hm
              | some p =>
                simp only [hpat] at hfl
                cases hcp : compile p with
                | error e =>
                  simp only [hcp] at hfl
                  exact Except.noConfusion hfl
                | ok regex =>
                  simp only [hcp] at hfl
                  rw [← Except.ok.inj hfl] at hm
                  exact List.mem_of_mem_filter hm
            exact ⟨tags, rfl, h1 ▸ hmt⟩
  -- GitWeb
  · intro c compile sel resp v h
    unfold GitWebChecker.check at h
    by_cases hbt : bodyTooLarge resp = true
    · rw [if_pos hbt] at h
      exact Except.noConfusion h
    · rw [if_neg hbt] at h
      cases hex : (match c.pattern with
          | some p => extract_versions compile p (sel resp.body)
          | none => .ok (sel resp.body)) with
      | error e =>
        simp only [hex] at h
        exact Except.noConfusion h
      | ok l =>
        simp only [hex] at h
        cases l with
        | nil => exact Except.noConfusion h
        | cons v1 tl =>
          cases tl with
          | nil =>
            have h1 : v1 = v := Except.ok.inj h
            exact ⟨[v1], rfl, by simp, h1 ▸ List.mem_cons_self v1 []⟩
          | cons v2 tl2 =>
            cases hg : (sortBy version_compare (v1 :: v2 :: tl2)).getLast? with
            | none =>
              simp only [hg] at h
              exact Except.noConfusion h
            | some m =>
              simp only [hg] at h
              have h1 : m = v := Except.ok.inj h
              refine ⟨v1 :: v2 :: tl2, rfl, by simp, ?_⟩
              rw [← h1]
              exact (sortBy_mem _ _ _).mp (mem_of_getLast? hg)
  -- HTML
  · intro c compile resp v h
    unfold HTMLChecker.check at h
    by_cases hbt : bodyTooLarge resp = true
    · rw [if_pos hbt] at h
      exact Except.noConfusion h
    · rw [if_neg hbt] at h
      by_cases hst : errorForStatus resp.status = true
      · rw [if_pos hst] at h
        exact Except.noConfusion h
      · rw [if_neg hst] at h
        cases hre : compile c.pattern with
        | error e =>
          simp only [hre] at h
          exact Except.noConfusion h
        | ok regex =>
          simp only [hre] at h
          cases hcg : collectGroup1 (regex.capturesAll resp.body) with
          | none =>
            simp only [hcg] at h
            exact Except.noConfusion h
          | some l =>
            simp only [hcg] at h
            cases l with
            | nil => exact Except.noConfusion h
            | cons v1 tl =>
              cases tl with
              | nil =>
                have h1 : v1 = v := Except.ok.inj h
                exact ⟨regex, [v1], rfl, hcg, by simp,
                  h1 ▸ List.mem_cons_self v1 []⟩
              | cons v2 tl2 =>
                cases hg : (sortBy version_compare
                    (v1 :: v2 :: tl2)).getLast? with
                | none =>
                  simp only [hg] at h
                  exact Except.noConfusion h
                | some m =>
                  simp only [hg] at h
                  have h1 : m = v := Except.ok.inj h
                  refine ⟨regex, v1 :: v2 :: tl2, rfl, hcg, by simp, ?_⟩
                  rw [← h1]
                  exact (sortBy_mem _ _ _).mp (mem_of_getLast? hg)
  -- Git
  · intro c compile resp v h
    unfold GitChecker.check at h
    by_cases hst : errorForStatus resp.status = true
    · rw [if_pos hst] at h
      exact Except.noConfusion h
    · rw [if_neg hst] at h
      cases hcol : collect_git_refs resp.body with
      | none =>
        simp only [hcol] at h
        exact Except.noConfusion h
      | some refs =>
        simp only [hcol] at h
        refine ⟨refs, rfl, ?_⟩
        cases hb : c.branch with
        | some b =>
          simp only [hb] at h
          left
          refine ⟨b, rfl, ?_⟩
          cases hbr : branchRevs refs b with
          | nil =>
            simp only [hbr] at h
            exact Except.noConfusion h
          | cons rev rest =>
            simp only [hbr] at h
            have h1 : rev = v := Except.ok.inj h
            have hm : v ∈ rev :: rest := by
              rw [← h1]
              exact List.mem_cons_self rev rest
            exact hm
        | none =>
          simp only [hb] at h
          right
          refine ⟨rfl, ?_⟩
          cases hex : (match c.pattern with
              | some p => extract_versions compile p (tagNames refs)
              | none => .ok (tagNames refs)) with
          | error e =>
            simp only [hex] at h
            exact Except.noConfusion h
          | ok l =>
            simp only [hex] at h
            by_cases hle : l.isEmpty = true
            · rw [if_pos hle] at h
              exact Except.noConfusion h
            · rw [if_neg hle] at h
              have hne : l ≠ [] := by
                intro hnil
                rw [hnil] at hle
                exact hle rfl
              cases hh : (sortBy (fun b a => version_compare a b) l).head? with
              | none =>
                simp only [hh] at h
                exact Except.noConfusion h
              | some m =>
                simp only [hh] at h
                have h1 : m = v := Except.ok.inj h
                exact ⟨l, rfl, hne,
                  h1 ▸ (sortBy_mem _ _ _).mp (mem_of_head? hh)⟩

/-- Witness for C8 (amended) at concrete inputs: the Anitya result is
the first stable version listed. -/
theorem c8_amended_result_membership_witness :
    ∃ d, (fun (_ : String) => some (⟨1, [""], []⟩ : AnityaData)) "" =
        some d ∧
      "" ∈ (if true then d.stable_versions else d.versions) :=
  c8_amended_result_membership.1 ⟨1, true⟩
    (fun _ => some ⟨1, [""], []⟩) ⟨200, none, ""⟩ "" (by rfl)

/-- C1: the pkt-line manifest parser decodes the two-line manifest into
its two (hex, payload) pairs consuming all input, decodes the
service-line manifest into three pairs leaving exactly the flush packet
b"0000" unconsumed, and fails on empty input. -/
theorem c1_pkt_line_examples :
    parse_git_manifest (bytes "01234abc heads\n12345bcd tags\n") =
      some ([(bytes "01234abc", bytes "heads"),
             (bytes "12345bcd", bytes "tags")], []) ∧
    parse_git_manifest
        (bytes "001e# service=git-upload-pack\n01234abc heads\n12345bcd tags\n0000") =
      some ([(bytes "001e#", bytes "service=git-upload-pack"),
             (bytes "01234abc", bytes "heads"),
             (bytes "12345bcd", bytes "tags")], bytes "0000") ∧
    parse_git_manifest (bytes "") = none := by
  refine ⟨by decide, by decide, by decide⟩
